import Mathlib

/-!
# Verification of the Structured-Data Salvage Engine

Shallow embedding of `src/python/crs_salvage_findings.py` (the strict salvage
engine) and `src/python/crs_salvage_json.py` (the lenient salvage engine).

Modelling conventions:
* Python/JSON values are the inductive `JVal`.  JSON numbers are kept as exact
  decimals `mantissa * 10 ^ exp10` (`JNum`); no claim depends on binary64
  rounding or on Python's float `repr`, so the exact-decimal abstraction is
  faithful for everything proved here.  The `NaN`/`Infinity` extensions of
  Python's `json.loads` are not modelled (no claim touches them).
* `json.loads` is modelled by `json_loads`, a strict fuel-based JSON reader:
  surrounding whitespace allowed, trailing data refused, unescaped control
  characters in strings refused, duplicate object keys resolved last-wins with
  the first position kept (CPython `dict` semantics).  A `\uXXXX` escape that
  denotes a lone surrogate (which Lean's `Char` cannot carry) is read as
  U+FFFD; parse success/failure agrees with CPython on those inputs.
* Python dictionaries are association lists with unique keys maintained by
  `upsertField` (update-in-place keeps the original position, as `dict` does).
-/

namespace CrsSalvage

/-- Exact decimal number: the value is `mant * 10 ^ exp10`. -/
structure JNum where
  mant : Int
  exp10 : Int
deriving DecidableEq

/-- JSON/Python values as produced by `json.loads`. -/
inductive JVal where
  | null
  | bool (b : Bool)
  | num (n : JNum)
  | str (s : String)
  | arr (elems : List JVal)
  | obj (fields : List (String × JVal))

/-- `dict.get`: first (unique) binding for a key. -/
def lookupField : List (String × JVal) → String → Option JVal
  | [], _ => none
  | (k, v) :: rest, key => if k = key then some v else lookupField rest key

/-- `dict` insertion: update an existing key in place, else append. -/
def upsertField : List (String × JVal) → String → JVal → List (String × JVal)
  | [], key, v => [(key, v)]
  | (k, w) :: rest, key, v =>
    if k = key then (k, v) :: rest else (k, w) :: upsertField rest key v

/-- `key in dict`. -/
def hasField (fs : List (String × JVal)) (key : String) : Bool :=
  (lookupField fs key).isSome

/-- JSON whitespace as accepted by `json.loads` around tokens. -/
def isJsonWs (c : Char) : Bool :=
  c == ' ' || c == '\t' || c == '\n' || c == '\r'

/-- Python `re` `\s` for `str` patterns: ASCII whitespace plus the Unicode
whitespace set of `str.isspace`. -/
def isPyWs (c : Char) : Bool :=
  c == ' ' || c == '\t' || c == '\n' || c == '\r' || c == '\x0b' || c == '\x0c' ||
  (0x1c ≤ c.toNat && c.toNat ≤ 0x1f) || c.toNat == 0x85 || c.toNat == 0xa0 ||
  c.toNat == 0x1680 || (0x2000 ≤ c.toNat && c.toNat ≤ 0x200a) ||
  c.toNat == 0x2028 || c.toNat == 0x2029 || c.toNat == 0x202f ||
  c.toNat == 0x205f || c.toNat == 0x3000

/-- Drop leading JSON whitespace. -/
def skipWs : List Char → List Char
  | [] => []
  | c :: cs => if isJsonWs c then skipWs cs else c :: cs

/-- Value of one hexadecimal digit. -/
def hexVal (c : Char) : Option Nat :=
  if '0' ≤ c ∧ c ≤ '9' then some (c.toNat - 48)
  else if 'a' ≤ c ∧ c ≤ 'f' then some (c.toNat - 87)
  else if 'A' ≤ c ∧ c ≤ 'F' then some (c.toNat - 55)
  else none

/-- Four hexadecimal digits, most significant first. -/
def hex4 : List Char → Option (Nat × List Char)
  | a :: b :: c :: d :: rest =>
    match hexVal a, hexVal b, hexVal c, hexVal d with
    | some x, some y, some z, some w => some (4096 * x + 256 * y + 16 * z + w, rest)
    | _, _, _, _ => none
  | _ => none

/-- String body reader: called just after the opening quote, consumes through
the closing quote.  Mirrors the strict CPython scanner: raw control characters
are refused, the eight short escapes and `\uXXXX` (with surrogate-pair
recombination) are accepted.  A lone surrogate becomes U+FFFD (see header). -/
def pjStr : Nat → List Char → List Char → Option (List Char × List Char)
  | 0, _, _ => none
  | fuel + 1, acc, cs =>
    match cs with
    | [] => none
    | c :: rest =>
      if c = '"' then some (acc.reverse, rest)
      else if c = '\\' then
        match rest with
        | [] => none
        | e :: rest₁ =>
          if e = '"' then pjStr fuel ('"' :: acc) rest₁
          else if e = '\\' then pjStr fuel ('\\' :: acc) rest₁
          else if e = '/' then pjStr fuel ('/' :: acc) rest₁
          else if e = 'b' then pjStr fuel ('\x08' :: acc) rest₁
          else if e = 'f' then pjStr fuel ('\x0c' :: acc) rest₁
          else if e = 'n' then pjStr fuel ('\n' :: acc) rest₁
          else if e = 'r' then pjStr fuel ('\r' :: acc) rest₁
          else if e = 't' then pjStr fuel ('\t' :: acc) rest₁
          else if e = 'u' then
            match hex4 rest₁ with
            | none => none
            | some (n, rest₂) =>
              if 0xd800 ≤ n ∧ n ≤ 0xdbff then
                if rest₂.head? = some '\\' ∧ rest₂.tail.head? = some 'u' then
                  match hex4 rest₂.tail.tail with
                  | some (m, rest₄) =>
                    if 0xdc00 ≤ m ∧ m ≤ 0xdfff then
                      pjStr fuel
                        (Char.ofNat (0x10000 + (n - 0xd800) * 0x400 + (m - 0xdc00)) :: acc) rest₄
                    else pjStr fuel ('�' :: acc) rest₂
                  | none => pjStr fuel ('�' :: acc) rest₂
                else pjStr fuel ('�' :: acc) rest₂
              else if 0xdc00 ≤ n ∧ n ≤ 0xdfff then pjStr fuel ('�' :: acc) rest₂
              else pjStr fuel (Char.ofNat n :: acc) rest₂
          else none
      else if c.toNat < 0x20 then none
      else pjStr fuel (c :: acc) rest

/-- Maximal run of ASCII digits. -/
def digitRun : List Char → List Char × List Char
  | [] => ([], [])
  | c :: cs =>
    if c.isDigit then (c :: (digitRun cs).1, (digitRun cs).2)
    else ([], c :: cs)

/-- Decimal value of a digit list. -/
def digitsToNat (l : List Char) : Nat :=
  l.foldl (fun a c => 10 * a + (c.toNat - 48)) 0

/-- Optional leading minus sign. -/
def pjSign (cs : List Char) : Bool × List Char :=
  match cs with
  | c :: t => if c = '-' then (true, t) else (false, c :: t)
  | [] => (false, [])

/-- Optional fraction part `.digits`: `(digits, rest, present)`. -/
def pjFrac (cs : List Char) : List Char × List Char × Bool :=
  match cs with
  | c :: t =>
    if c = '.' then ((digitRun t).1, (digitRun t).2, true) else ([], c :: t, false)
  | [] => ([], [], false)

/-- Optional exponent part `[eE][+-]?digits`: `(digits, rest, present, negative)`. -/
def pjExp (cs : List Char) : List Char × List Char × Bool × Bool :=
  match cs with
  | c :: t =>
    if c = 'e' ∨ c = 'E' then
      match t with
      | d :: t₂ =>
        if d = '+' then ((digitRun t₂).1, (digitRun t₂).2, true, false)
        else if d = '-' then ((digitRun t₂).1, (digitRun t₂).2, true, true)
        else ((digitRun t).1, (digitRun t).2, true, false)
      | [] => ((digitRun t).1, (digitRun t).2, true, false)
    else ([], c :: t, false, false)
  | [] => ([], [], false, false)

/-- JSON number literal (the CPython `NUMBER_RE` grammar): optional sign,
integer part without leading zeros, optional fraction, optional exponent. -/
def pjNum (cs : List Char) : Option (JNum × List Char) :=
  match (digitRun (pjSign cs).2).1 with
  | [] => none
  | d0 :: drest =>
    if d0 = '0' ∧ drest ≠ [] then none
    else
      let fr := pjFrac (digitRun (pjSign cs).2).2
      if fr.2.2 ∧ fr.1 = [] then none
      else
        let er := pjExp fr.2.1
        if er.2.2.1 ∧ er.1 = [] then none
        else
          let mantNat : Nat := digitsToNat ((d0 :: drest) ++ fr.1)
          let mant : Int := if (pjSign cs).1 then -(mantNat : Int) else (mantNat : Int)
          let expMag : Int := (digitsToNat er.1 : Int)
          let e : Int := (if er.2.2.2 then -expMag else expMag) - (fr.1.length : Int)
          some (⟨mant, e⟩, er.2.1)

mutual

/-- One JSON value: skips leading whitespace, then dispatches on the first
character exactly as the CPython scanner does. -/
def pjValue : Nat → List Char → Option (JVal × List Char)
  | 0, _ => none
  | fuel + 1, cs =>
    match skipWs cs with
    | [] => none
    | c :: rest =>
      if c = '\x7b' then
        (if (skipWs rest).head? = some '\x7d' then some (JVal.obj [], (skipWs rest).tail)
         else
           match pjMembers fuel [] rest with
           | some (fs, r) => some (JVal.obj fs, r)
           | none => none)
      else if c = '[' then
        (if (skipWs rest).head? = some ']' then some (JVal.arr [], (skipWs rest).tail)
         else
           match pjElems fuel [] rest with
           | some (xs, r) => some (JVal.arr xs, r)
           | none => none)
      else if c = '"' then
        (match pjStr (fuel + 1) [] rest with
         | some (content, r) => some (JVal.str (String.mk content), r)
         | none => none)
      else if c = 't' then
        (match rest with
         | 'r' :: 'u' :: 'e' :: r => some (JVal.bool true, r)
         | _ => none)
      else if c = 'f' then
        (match rest with
         | 'a' :: 'l' :: 's' :: 'e' :: r => some (JVal.bool false, r)
         | _ => none)
      else if c = 'n' then
        (match rest with
         | 'u' :: 'l' :: 'l' :: r => some (JVal.null, r)
         | _ => none)
      else if c = '-' ∨ c.isDigit then
        match pjNum (c :: rest) with
        | some (n, r) => some (JVal.num n, r)
        | none => none
      else none

/-- Array elements after at least one is required (`[` already consumed and
the next token is not `]`). -/
def pjElems : Nat → List JVal → List Char → Option (List JVal × List Char)
  | 0, _, _ => none
  | fuel + 1, acc, cs =>
    match pjValue fuel cs with
    | none => none
    | some (v, rest) =>
      match skipWs rest with
      | ',' :: rest₂ => pjElems fuel (v :: acc) rest₂
      | ']' :: rest₂ => some ((v :: acc).reverse, rest₂)
      | _ => none

/-- Object members after at least one is required (`{` already consumed and
the next token is not `}`). -/
def pjMembers : Nat → List (String × JVal) → List Char →
    Option (List (String × JVal) × List Char)
  | 0, _, _ => none
  | fuel + 1, acc, cs =>
    match skipWs cs with
    | '"' :: rest =>
      (match pjStr (fuel + 1) [] rest with
       | none => none
       | some (key, rest₂) =>
         match skipWs rest₂ with
         | ':' :: rest₃ =>
           (match pjValue fuel rest₃ with
            | none => none
            | some (v, rest₄) =>
              let acc' := upsertField acc (String.mk key) v
              match skipWs rest₄ with
              | ',' :: rest₅ => pjMembers fuel acc' rest₅
              | '\x7d' :: rest₅ => some (acc', rest₅)
              | _ => none)
         | _ => none)
    | _ => none

end

/-- `json.loads` on a character list. -/
def json_loadsList (cs : List Char) : Option JVal :=
  match pjValue (2 * cs.length + 2) cs with
  | some (v, rest) => if (skipWs rest).isEmpty then some v else none
  | none => none

/-- Model of `json.loads` (raising = `none`). -/
def json_loads (s : String) : Option JVal := json_loadsList s.data

/-! ## `json.dumps(..., indent=2)` -/

/-- Decimal digits of a natural number, most significant first. -/
def natDigits (n : Nat) : List Char :=
  if _h : n < 10 then [Char.ofNat (48 + n)]
  else natDigits (n / 10) ++ [Char.ofNat (48 + n % 10)]
termination_by n
decreasing_by exact Nat.div_lt_self (by omega) (by omega)

/-- Decimal rendering of an integer. -/
def printInt (i : Int) : List Char :=
  if i < 0 then '-' :: natDigits i.natAbs else natDigits i.toNat

/-- Rendering of an exact decimal.  CPython renders `int` via decimal digits
and `float` via `repr`; here every number is an exact decimal and is rendered
as `<mant>` or `<mant>e<exp>` — a syntactically valid JSON number denoting the
same value (the claims proved below never depend on the spelling). -/
def printJNum (x : JNum) : List Char :=
  printInt x.mant ++ (if x.exp10 = 0 then [] else 'e' :: printInt x.exp10)

/-- Lower-case hexadecimal digit. -/
def hexDigitChar (n : Nat) : Char :=
  if n < 10 then Char.ofNat (48 + n) else Char.ofNat (87 + n)

/-- `\uXXXX` escape for a code unit. -/
def uEscape (n : Nat) : List Char :=
  ['\\', 'u', hexDigitChar (n / 4096 % 16), hexDigitChar (n / 256 % 16),
   hexDigitChar (n / 16 % 16), hexDigitChar (n % 16)]

/-- Escape of one character under `ensure_ascii=True` (the `json.dumps`
default): short escapes, raw printable ASCII, `\uXXXX` (with surrogate pairs
above U+FFFF) for everything else. -/
def escapeChar (c : Char) : List Char :=
  if c = '"' then ['\\', '"']
  else if c = '\\' then ['\\', '\\']
  else if c = '\n' then ['\\', 'n']
  else if c = '\r' then ['\\', 'r']
  else if c = '\t' then ['\\', 't']
  else if c = '\x08' then ['\\', 'b']
  else if c = '\x0c' then ['\\', 'f']
  else if c.toNat < 0x20 ∨ 0x7f ≤ c.toNat then
    if c.toNat < 0x10000 then uEscape c.toNat
    else uEscape (0xd800 + (c.toNat - 0x10000) / 0x400) ++
      uEscape (0xdc00 + (c.toNat - 0x10000) % 0x400)
  else [c]

/-- A quoted, escaped JSON string literal. -/
def escapeStr (s : String) : List Char :=
  '"' :: (s.data.map escapeChar).flatten ++ ['"']

/-- Indentation for nesting level `lvl` with `indent=2`. -/
def indentChars (lvl : Nat) : List Char := List.replicate (2 * lvl) ' '

mutual

/-- `json.dumps(v, indent=2)` as a character list. -/
def dumpVal : Nat → JVal → List Char
  | _, JVal.null => ['n', 'u', 'l', 'l']
  | _, JVal.bool true => ['t', 'r', 'u', 'e']
  | _, JVal.bool false => ['f', 'a', 'l', 's', 'e']
  | _, JVal.num x => printJNum x
  | _, JVal.str s => escapeStr s
  | _, JVal.arr [] => ['[', ']']
  | lvl, JVal.arr (x :: xs) =>
    '[' :: '\n' :: (indentChars (lvl + 1) ++ dumpVal (lvl + 1) x ++
      dumpMore (lvl + 1) xs ++ '\n' :: (indentChars lvl ++ [']']))
  | _, JVal.obj [] => ['\x7b', '\x7d']
  | lvl, JVal.obj (f :: fs) =>
    '\x7b' :: '\n' :: (indentChars (lvl + 1) ++ dumpField (lvl + 1) f ++
      dumpMoreF (lvl + 1) fs ++ '\n' :: (indentChars lvl ++ ['\x7d']))

/-- Remaining array items, each preceded by `,\n` and indentation. -/
def dumpMore : Nat → List JVal → List Char
  | _, [] => []
  | lvl, x :: xs => ',' :: '\n' :: (indentChars lvl ++ dumpVal lvl x ++ dumpMore lvl xs)

/-- One object member `"key": value`. -/
def dumpField : Nat → String × JVal → List Char
  | lvl, (k, v) => escapeStr k ++ ':' :: ' ' :: dumpVal lvl v

/-- Remaining object members. -/
def dumpMoreF : Nat → List (String × JVal) → List Char
  | _, [] => []
  | lvl, f :: fs => ',' :: '\n' :: (indentChars lvl ++ dumpField lvl f ++ dumpMoreF lvl fs)

end

/-- `json.dumps(v, indent=2)` as a string. -/
def jdump2 (v : JVal) : String := String.mk (dumpVal 0 v)

/-! ## Candidate generation (`json_candidates` in `crs_salvage_findings.py`)

The Python function is a generator; its yields are modelled as a list in
yield order.  Strategy 1 yields an already-parsed value, strategies 2–5 yield
texts still to be parsed, hence the two-constructor `Cand`. -/

/-- A candidate: a parsed value (strategy 1) or a text fragment (2–5). -/
inductive Cand where
  | val (v : JVal)
  | frag (s : String)

/-- Strategy 1: direct top-level parse of the whole text. -/
def strat1 (text : String) : List Cand :=
  match json_loads text with
  | some v => [Cand.val v]
  | none => []

/-- The fixed wrapper-key order of strategy 2. -/
def wrapperKeys : List String := ["message", "output", "response", "content", "text"]

/-- Strategy 2: envelope unwrap.  For each wrapper key in order: a dict value
with a string `content` field yields that string; a string value yields
itself; anything else yields nothing. -/
def strat2 (text : String) : List Cand :=
  match json_loads text with
  | some (JVal.obj fs) =>
    wrapperKeys.filterMap (fun k =>
      match lookupField fs k with
      | some (JVal.obj m) =>
        (match lookupField m "content" with
         | some (JVal.str c) => some (Cand.frag c)
         | _ => none)
      | some (JVal.str s) => some (Cand.frag s)
      | _ => none)
  | _ => []

/-- Does the list start with a ```` ```json ```` fence tag (`json`
case-insensitive, per `re.IGNORECASE`)?  If so, return the remainder. -/
def fenceOpen? (cs : List Char) : Option (List Char) :=
  match cs with
  | a :: b :: c :: c₁ :: c₂ :: c₃ :: c₄ :: rest =>
    if a = '\x60' ∧ b = '\x60' ∧ c = '\x60' ∧ (c₁ = 'j' ∨ c₁ = 'J') ∧
       (c₂ = 's' ∨ c₂ = 'S') ∧ (c₃ = 'o' ∨ c₃ = 'O') ∧ (c₄ = 'n' ∨ c₄ = 'N') then
      some rest
    else none
  | _ => none

/-- Split at the first closing ```` ``` ```` fence: `(body, rest-after-fence)`.
This is the lazy `[\s\S]*?` of the fence pattern. -/
def findFence : List Char → Option (List Char × List Char)
  | [] => none
  | c :: cs =>
    if c = '\x60' ∧ cs.head? = some '\x60' ∧ cs.tail.head? = some '\x60' then
      some ([], cs.tail.tail)
    else
      match findFence cs with
      | some (b, r) => some (c :: b, r)
      | none => none

/-- Maximal run of Python-`\s` whitespace: `(run, rest)`. -/
def skipPyWs : List Char → List Char × List Char
  | [] => ([], [])
  | c :: cs =>
    if isPyWs c then (c :: (skipPyWs cs).1, (skipPyWs cs).2)
    else ([], c :: cs)

/-- Strategy 3 (`re.finditer` over the fence pattern): at each position try a
```` ```json ```` tag, greedy `\s*`, then the lazy body up to the first
closing fence; on a match resume after it, otherwise advance one character. -/
def fenceScanAux : Nat → List Char → List String
  | 0, _ => []
  | _, [] => []
  | fuel + 1, c :: cs =>
    match fenceOpen? (c :: cs) with
    | some afterTag =>
      (match findFence (skipPyWs afterTag).2 with
       | some (body, rest) => String.mk body :: fenceScanAux fuel rest
       | none => fenceScanAux fuel cs)
    | none => fenceScanAux fuel cs

/-- All ```` ```json ... ``` ```` bodies, in match order. -/
def fenceScan (text : String) : List String :=
  fenceScanAux (text.length + 1) text.data

/-- Split at the first `{`/`}`: `(brace-free run, rest)` — the backtrackable
`[^{}]*` region of the findings pattern. -/
def braceRun : List Char → List Char × List Char
  | [] => ([], [])
  | c :: cs =>
    if c = '\x7b' ∨ c = '\x7d' then ([], c :: cs)
    else (c :: (braceRun cs).1, (braceRun cs).2)

/-- The literal `"findings"` of the strategy-4 pattern. -/
def keyLit : List Char := ['"', 'f', 'i', 'n', 'd', 'i', 'n', 'g', 's', '"']

/-- Consume an exact literal. -/
def dropLit : List Char → List Char → Option (List Char)
  | [], cs => some cs
  | p :: ps, c :: cs => if c = p then dropLit ps cs else none
  | _ :: _, [] => none

/-- The deterministic `\s*:\s*\[` after the key literal:
`(w₁, w₂, rest)` with input `= w₁ ++ ':' :: w₂ ++ '[' :: rest`. -/
def afterKey (cs : List Char) : Option (List Char × List Char × List Char) :=
  match (skipPyWs cs).2 with
  | c :: r₁ =>
    if c = ':' then
      match (skipPyWs r₁).2 with
      | d :: r₃ => if d = '[' then some ((skipPyWs cs).1, (skipPyWs r₁).1, r₃) else none
      | [] => none
    else none
  | [] => none

/-- The trailing `[^{}]*\}`: brace-free run, then a required `}`. -/
def closeBrace (cs : List Char) : Option (List Char × List Char) :=
  match (braceRun cs).2 with
  | c :: r₂ => if c = '\x7d' then some ((braceRun cs).1, r₂) else none
  | [] => none

/-- The lazy `[\s\S]*?\]` followed by `[^{}]*\}`: find the first `]` whose
continuation closes; earlier `]`s where it does not close join the body.
Returns `(B, C, rest)` with input `= B ++ ']' :: C ++ '}' :: rest`. -/
def lazyClose : List Char → Option (List Char × List Char × List Char)
  | [] => none
  | c :: cs =>
    if c = ']' then
      match closeBrace cs with
      | some (cpart, rest) => some ([], cpart, rest)
      | none =>
        (match lazyClose cs with
         | some (b, cp, r) => some (c :: b, cp, r)
         | none => none)
    else
      match lazyClose cs with
      | some (b, cp, r) => some (c :: b, cp, r)
      | none => none

/-- Key literal at this split, then the deterministic tail and the lazy close.
Returns `(matched-from-key, rest)`. -/
def tryKeyAt (cs : List Char) : Option (List Char × List Char) :=
  match dropLit keyLit cs with
  | none => none
  | some afterK =>
    match afterKey afterK with
    | none => none
    | some (w₁, w₂, r₃) =>
      match lazyClose r₃ with
      | none => none
      | some (b, cpart, rest) =>
        some (keyLit ++ w₁ ++ ':' :: w₂ ++ '[' :: b ++ ']' :: cpart ++ ['\x7d'], rest)

/-- Greedy `[^{}]*` before the key: try the longest brace-free consumption
first (recurse before matching here), backtracking to shorter ones. -/
def searchA : List Char → Option (List Char × List Char × List Char)
  | [] => none
  | c :: cs =>
    if c = '\x7b' ∨ c = '\x7d' then none
    else
      match searchA cs with
      | some (a, m, r) => some (c :: a, m, r)
      | none =>
        (match tryKeyAt (c :: cs) with
         | some (m, r) => some ([], m, r)
         | none => none)

/-- One attempted match of the findings pattern at this position. -/
def matchFindingsAt (cs : List Char) : Option (List Char × List Char) :=
  match cs with
  | c :: t =>
    if c = '\x7b' then
      match searchA t with
      | some (a, m, r) => some ('\x7b' :: (a ++ m), r)
      | none => none
    else none
  | [] => none

/-- Strategy 4 (`re.finditer` over
`\{[^{}]*"findings"\s*:\s*\[[\s\S]*?\][^{}]*\}`): leftmost matches, resuming
after each match, advancing one character after a failed position. -/
def findingsScanAux : Nat → List Char → List String
  | 0, _ => []
  | _, [] => []
  | fuel + 1, c :: cs =>
    match matchFindingsAt (c :: cs) with
    | some (m, rest) => String.mk m :: findingsScanAux fuel rest
    | none => findingsScanAux fuel cs

/-- All findings-pattern matches, in order. -/
def findingsScan (text : String) : List String :=
  findingsScanAux (text.length + 1) text.data

/-- `text[a:b]` (character slicing, as Python slices by code point). -/
def sliceStr (text : String) (a b : Nat) : String :=
  String.mk ((text.data.drop a).take (b - a))

/-- Strategy 5's stack scan with the 40-fragment cap: positions are pushed at
each `[`, and each `]` with a non-empty stack records the span `(start, i+1)`;
recording 40 spans breaks the loop. -/
def bracketScanAux : List Char → Nat → List Nat → List (Nat × Nat) → List (Nat × Nat)
  | [], _, _, acc => acc.reverse
  | c :: cs, i, stack, acc =>
    if c = '[' then bracketScanAux cs (i + 1) (i :: stack) acc
    else if c = ']' then
      match stack with
      | [] => bracketScanAux cs (i + 1) [] acc
      | top :: rest =>
        let acc' := (top, i + 1) :: acc
        if 40 ≤ acc'.length then acc'.reverse
        else bracketScanAux cs (i + 1) rest acc'
    else bracketScanAux cs (i + 1) stack acc

/-- The spans recorded by strategy 5. -/
def bracketSpans (text : String) : List (Nat × Nat) :=
  bracketScanAux text.data 0 [] []

/-- Strategy 5's fragments. -/
def strat5 (text : String) : List Cand :=
  (bracketSpans text).map (fun p => Cand.frag (sliceStr text p.1 p.2))

/-- `json_candidates`: all five strategies' yields, in generator order. -/
def json_candidates (text : String) : List Cand :=
  strat1 text ++ strat2 text ++ (fenceScan text).map Cand.frag ++
    (findingsScan text).map Cand.frag ++ strat5 text

/-! ## Scoring and selection (`load_json`, `score_array`, `best_findings`) -/

/-- `load_json`: dicts and lists pass through; anything else goes through
`json.loads`, whose `TypeError` on non-strings is swallowed into `None`. -/
def load_json : Cand → Option JVal
  | Cand.val v =>
    (match v with
     | JVal.obj _ => some v
     | JVal.arr _ => some v
     | JVal.str s => json_loads s
     | _ => none)
  | Cand.frag s => json_loads s

/-- The `REQUIRED` key set. -/
def requiredKeys : List String :=
  ["path", "cwe_guess", "severity", "confidence", "lines", "snippet",
   "evidence", "reasoning", "fix"]

/-- `isinstance(x, str)`. -/
def isStrVal : Option JVal → Bool
  | some (JVal.str _) => true
  | _ => false

/-- `isinstance(x, (int, float))`.  NB CPython's `bool` is a subclass of
`int`, so a JSON `true`/`false` passes this check. -/
def isNumVal : Option JVal → Bool
  | some (JVal.num _) => true
  | some (JVal.bool _) => true
  | _ => false

/-- `isinstance(x, list) and x` (non-empty list). -/
def isNonEmptyListVal : Option JVal → Bool
  | some (JVal.arr l) => !l.isEmpty
  | _ => false

/-- `isinstance(x, dict)`. -/
def isDict : JVal → Bool
  | JVal.obj _ => true
  | _ => false

/-- One element passes the strict schema: all nine required keys present and
the light type checks of `score_array` hold. -/
def validFinding (v : JVal) : Bool :=
  match v with
  | JVal.obj fs =>
    requiredKeys.all (fun k => hasField fs k) &&
    isStrVal (lookupField fs "path") && isStrVal (lookupField fs "cwe_guess") &&
    isStrVal (lookupField fs "severity") && isNumVal (lookupField fs "confidence") &&
    isNonEmptyListVal (lookupField fs "lines")
  | _ => false

/-- A score, compared as a Python 2-tuple of ints. -/
abbrev Score := Int × Int

/-- Python tuple `<` on scores (lexicographic). -/
def scoreLt (a b : Score) : Prop := a.1 < b.1 ∨ (a.1 = b.1 ∧ a.2 < b.2)

instance (a b : Score) : Decidable (scoreLt a b) := by
  unfold scoreLt; infer_instance

/-- `score_array`: `(valid findings, dicts)` for a list, `(-1, 0)` otherwise
(including Python `None`, modelled as `none`). -/
def score_array : Option JVal → Score
  | some (JVal.arr xs) =>
    let objs := xs.filter isDict
    if objs.isEmpty then (0, 0)
    else (((objs.filter validFinding).length : Int), (objs.length : Int))
  | _ => (-1, 0)

/-- The findings unwrap inside `best_findings`: a dict with a list `findings`
field contributes that list, otherwise the value itself passes through. -/
def unwrapFindings : Option JVal → Option JVal
  | some (JVal.obj fs) =>
    (match lookupField fs "findings" with
     | some (JVal.arr l) => some (JVal.arr l)
     | _ => some (JVal.obj fs))
  | other => other

/-- The `arr` computed for one candidate in the selection loop. -/
def candArr (c : Cand) : Option JVal := unwrapFindings (load_json c)

/-- The score of one candidate. -/
def candScore (c : Cand) : Score := score_array (candArr c)

/-- The selection loop: keep the strictly best `(arr, score)` seen so far
(`arr = candArr c` and `sc = candScore c` are the loop body's locals). -/
def selLoop : List Cand → Option JVal → Score → Option JVal × Score
  | [], best, bs => (best, bs)
  | c :: cs, best, bs =>
    if scoreLt bs (candScore c) then selLoop cs (candArr c) (candScore c)
    else selLoop cs best bs

/-- The loop's final state, from `best=None`, `best_score=(-1,0)`. -/
def best_pair (text : String) : Option JVal × Score :=
  selLoop (json_candidates text) none (-1, 0)

/-- The truncation marker appended to oversize snippets. -/
def truncMark : String := "…"

/-- Snippet truncation of one element: a dict whose `snippet` is a string
longer than 1600 characters is replaced by a copy with
`snippet[:1600] + "…"`; everything else passes through. -/
def truncElem (v : JVal) : JVal :=
  match v with
  | JVal.obj fs =>
    (match lookupField fs "snippet" with
     | some (JVal.str sn) =>
       if 1600 < sn.length then
         JVal.obj (upsertField fs "snippet"
           (JVal.str (String.mk (sn.data.take 1600) ++ truncMark)))
       else JVal.obj fs
     | _ => JVal.obj fs)
  | _ => v

/-- The post-processing pass over the accepted result. -/
def truncList (xs : List JVal) : List JVal := xs.map truncElem

/-- `best_findings`: run the selection loop, accept only a positive primary
score, truncate snippets.  (A positive primary forces the retained value to
be an array; the `_` arm is unreachable.) -/
def best_findings (text : String) : List JVal :=
  match best_pair text with
  | (some v, _) =>
    if 0 < (score_array (some v)).1 then
      match v with
      | JVal.arr xs => truncList xs
      | _ => []
    else []
  | (none, _) => []

/-- The strict engine's stdout: `print(json.dumps(arr, indent=2))`. -/
def strictOut (text : String) : String :=
  jdump2 (JVal.arr (best_findings text)) ++ "\n"

/-! ## The lenient engine (`crs_salvage_json.py`) -/

/-- The stack scan of `last_array`: track depth, remember the start of the
current top-level span, and keep the last span closed at depth zero. -/
def lastSpanAux : List Char → Nat → Option Nat → Nat → Option (Nat × Nat) →
    Option (Nat × Nat)
  | [], _, _, _, last => last
  | c :: cs, i, start, depth, last =>
    if c = '[' then
      lastSpanAux cs (i + 1) (if depth = 0 then some i else start) (depth + 1) last
    else if c = ']' then
      (if 0 < depth then
        (if depth - 1 = 0 then
          match start with
          | some st => lastSpanAux cs (i + 1) start (depth - 1) (some (st, i + 1))
          | none => lastSpanAux cs (i + 1) start (depth - 1) last
        else lastSpanAux cs (i + 1) start (depth - 1) last)
      else lastSpanAux cs (i + 1) start depth last)
    else lastSpanAux cs (i + 1) start depth last

/-- `last_array`: the most recently closed top-level bracket span, if it
parses as a JSON array. -/
def last_array (text : String) : Option (List JVal) :=
  match lastSpanAux text.data 0 none 0 none with
  | none => none
  | some (a, b) =>
    match json_loads (sliceStr text a b) with
    | some (JVal.arr l) => some l
    | _ => none

/-- Python truthiness of an optional value (`obj.get(k)` result). -/
def pyTruthy : Option JVal → Bool
  | none => false
  | some JVal.null => false
  | some (JVal.bool b) => b
  | some (JVal.num n) => n.mant != 0
  | some (JVal.str s) => !s.isEmpty
  | some (JVal.arr l) => !l.isEmpty
  | some (JVal.obj l) => !l.isEmpty

/-- The `for k in ("output","response","content","text")` loop: first string
value among the keys. -/
def firstStrKey (fs : List (String × JVal)) : List String → Option String
  | [] => none
  | k :: ks =>
    match lookupField fs k with
    | some (JVal.str v) => some v
    | _ => firstStrKey fs ks

/-- `try_message_content`: `obj.get("message") or {}` then `.get("content")`;
a truthy non-dict `message` raises `AttributeError`, swallowed by the bare
`except` into `None`; otherwise fall back to the four string wrapper keys. -/
def try_message_content (s : String) : Option String :=
  match json_loads s with
  | some (JVal.obj fs) =>
    let msgv := lookupField fs "message"
    let msg : JVal := if pyTruthy msgv then msgv.getD JVal.null else JVal.obj []
    (match msg with
     | JVal.obj m =>
       (match lookupField m "content" with
        | some (JVal.str c) => some c
        | _ => firstStrKey fs ["output", "response", "content", "text"])
     | _ => none)
  | _ => none

/-- `try_top_struct`: whole-text parse to a list, or a dict's list-valued
`findings` field. -/
def try_top_struct (s : String) : Option (List JVal) :=
  match json_loads s with
  | some (JVal.arr l) => some l
  | some (JVal.obj fs) =>
    (match lookupField fs "findings" with
     | some (JVal.arr l) => some l
     | _ => none)
  | _ => none

/-- The lenient engine's printed array, following `main`'s branch order;
note `if inner:` skips an empty string and Python's `or` treats an empty
list from `try_top_struct` as falsy. -/
def lenient_result (s : String) : List JVal :=
  match try_top_struct s with
  | some arr => arr
  | none =>
    let step2 : Option (List JVal) :=
      match try_message_content s with
      | some inner =>
        if inner.isEmpty then none
        else
          (match try_top_struct inner with
           | some a => if a.isEmpty then last_array inner else some a
           | none => last_array inner)
      | none => none
    match step2 with
    | some arr => arr
    | none =>
      match last_array s with
      | some arr => arr
      | none => []

/-- The lenient engine's stdout.  Every success branch prints
`json.dumps(arr, indent=2)` for the `arr` that `lenient_result` returns in
that branch, and the final fallback prints the literal `"[]"`, which equals
`json.dumps([], indent=2)`. -/
def lenientOut (s : String) : String :=
  jdump2 (JVal.arr (lenient_result s)) ++ "\n"

/-- Following the claim's own words, which require `confidence` to be
*numeric*: a number, not a boolean. -/
def specIsNum : Option JVal → Bool
  | some (JVal.num _) => true
  | _ => false

/-- A Finding Record as the claim (and §3 of the spec) defines validity:
nine required keys, three string fields, numeric confidence, non-empty
`lines`. -/
def specValidFinding (v : JVal) : Bool :=
  match v with
  | JVal.obj fs =>
    requiredKeys.all (fun k => hasField fs k) &&
    isStrVal (lookupField fs "path") && isStrVal (lookupField fs "cwe_guess") &&
    isStrVal (lookupField fs "severity") && specIsNum (lookupField fs "confidence") &&
    isNonEmptyListVal (lookupField fs "lines")
  | _ => false

/-- A mapping with all nine keys whose `confidence` is the boolean `true`. -/
def c3cex : JVal :=
  JVal.obj [("path", JVal.str "p"), ("cwe_guess", JVal.str "c"),
    ("severity", JVal.str "s"), ("confidence", JVal.bool true),
    ("lines", JVal.arr [JVal.num ⟨1, 0⟩]), ("snippet", JVal.str "x"),
    ("evidence", JVal.null), ("reasoning", JVal.null), ("fix", JVal.null)]

/-- The frame condition of C5 relating an accepted element to the output
element: a mapping with a string snippet longer than 1600 characters becomes
a copy whose snippet is the 1600-character prefix plus the marker, with every
other field's value, the key order, and the field count unchanged; every
other element passes through identically. -/
def snippetTruncRel (a b : JVal) : Prop :=
  (∃ fs sn, a = JVal.obj fs ∧ lookupField fs "snippet" = some (JVal.str sn) ∧
    1600 < sn.length ∧
    ∃ fs', b = JVal.obj fs' ∧
      lookupField fs' "snippet" =
        some (JVal.str (String.mk (sn.data.take 1600) ++ truncMark)) ∧
      (∀ k, k ≠ "snippet" → lookupField fs' k = lookupField fs k) ∧
      fs'.map Prod.fst = fs.map Prod.fst) ∨
  (b = a ∧
    ¬ ∃ fs sn, a = JVal.obj fs ∧ lookupField fs "snippet" = some (JVal.str sn) ∧
      1600 < sn.length)

/-- A 1601-character snippet, for the C5 witness. -/
def longSnip : String := String.mk (List.replicate 1601 'a')

/-- A valid record carrying `longSnip`. -/
def c5rec : JVal :=
  JVal.obj [("path", JVal.str "p"), ("cwe_guess", JVal.str "c"),
    ("severity", JVal.str "s"), ("confidence", JVal.num ⟨1, 0⟩),
    ("lines", JVal.arr [JVal.num ⟨7, 0⟩]), ("snippet", JVal.str longSnip),
    ("evidence", JVal.null), ("reasoning", JVal.null), ("fix", JVal.null)]

/-- A small well-formed single-record input text. -/
def recTextA : String :=
  "[\x7b\"path\":\"a.c\",\"cwe_guess\":\"CWE-1\",\"severity\":\"high\"," ++
  "\"confidence\":0.9,\"lines\":[1,2],\"snippet\":\"x\",\"evidence\":\"e\"," ++
  "\"reasoning\":\"r\",\"fix\":\"f\"\x7d]"

/-- The value `recTextA` parses to (one valid Finding Record). -/
def recA : JVal :=
  JVal.obj [("path", JVal.str "a.c"), ("cwe_guess", JVal.str "CWE-1"),
    ("severity", JVal.str "high"), ("confidence", JVal.num ⟨9, -1⟩),
    ("lines", JVal.arr [JVal.num ⟨1, 0⟩, JVal.num ⟨2, 0⟩]),
    ("snippet", JVal.str "x"), ("evidence", JVal.str "e"),
    ("reasoning", JVal.str "r"), ("fix", JVal.str "f")]

/-- Modelled from the spec (§4.1 strategy 5 without the cap): the same
single-pass stack scan, recording every span closed by a `]`, in closing
order, with no 40-fragment bound.  Used as the reference for the refinement
statement of C7. -/
def allSpansSpec : List Char → Nat → List Nat → List (Nat × Nat)
  | [], _, _ => []
  | c :: cs, i, stack =>
    if c = '[' then allSpansSpec cs (i + 1) (i :: stack)
    else if c = ']' then
      match stack with
      | [] => allSpansSpec cs (i + 1) []
      | top :: rest => (top, i + 1) :: allSpansSpec cs (i + 1) rest
    else allSpansSpec cs (i + 1) stack

/-- The uncapped span list of the whole text. -/
def bracketSpansSpec (text : String) : List (Nat × Nat) :=
  allSpansSpec text.data 0 []

/-- 100 disjoint balanced bracket spans. -/
def c7text : String := String.join (List.replicate 100 "[]")

/-- Only Python whitespace characters. -/
def pyWsOnly (l : List Char) : Prop := ∀ c ∈ l, isPyWs c = true

/-- No `{` or `}` characters. -/
def braceFree (l : List Char) : Prop := ∀ c ∈ l, c ≠ '\x7b' ∧ c ≠ '\x7d'

/-- The tail shape of a findings-pattern match, from the key literal on:
`"findings" \s* : \s* [ B ] C }` with `C` brace-free and `B` unconstrained
(it may contain braces). -/
def keyShape (m : List Char) : Prop :=
  ∃ W₁ W₂ B C,
    m = keyLit ++ (W₁ ++ (':' :: (W₂ ++ ('[' :: (B ++ (']' :: (C ++ ['\x7d']))))))) ∧
    pyWsOnly W₁ ∧ pyWsOnly W₂ ∧ braceFree C

/-- The shape every findings-pattern match has (the amended C6): the brace
freedom applies to the region `A` before `"findings"` and to the region `C`
after the bracketed array's closing `]`; the bracketed content itself is
unconstrained. -/
def findingsShape (m : List Char) : Prop :=
  ∃ A k, m = '\x7b' :: (A ++ k) ∧ braceFree A ∧ keyShape k

/-- A wrapper object whose findings array holds a nested object: the regex
matches the whole of it, so its interior does contain braces. -/
def c6cex : String := "\x7b\"findings\":[\x7b\"a\":1\x7d]\x7d"

/-- Prose input with a single bracketed span, for the C8 witness. -/
def c8text : String := "The answer is [1,2,3] ok."

/-- Fully non-bracketed prose, for the C8 witness. -/
def c8prose : String := "hello world with no brackets"

/-- The per-key yield rule of the envelope unwrap, stated from the claim's
words: a dict value with a string `content` field yields that string; a
string value yields itself; nothing otherwise. -/
def specEnvelopeYield (fs : List (String × JVal)) (k : String) : Option Cand :=
  match lookupField fs k with
  | some (JVal.obj m) =>
    (match lookupField m "content" with
     | some (JVal.str c) => some (Cand.frag c)
     | _ => none)
  | some (JVal.str s) => some (Cand.frag s)
  | _ => none

/-- The claim's wrapper-unwrap input: `recTextA` embedded as the string
`content` of a `message` envelope. -/
def c9wrap : String :=
  "\x7b\"message\": \x7b\"content\": \"[\x7b\\\"path\\\":\\\"a.c\\\"," ++
  "\\\"cwe_guess\\\":\\\"CWE-1\\\",\\\"severity\\\":\\\"high\\\"," ++
  "\\\"confidence\\\":0.9,\\\"lines\\\":[1,2],\\\"snippet\\\":\\\"x\\\"," ++
  "\\\"evidence\\\":\\\"e\\\",\\\"reasoning\\\":\\\"r\\\",\\\"fix\\\":\\\"f\\\"\x7d]\"\x7d\x7d"

/-- An embedded valid record (used inside the C1 counterexample). -/
def c1inner (p : String) : JVal :=
  JVal.obj [("path", JVal.str p), ("cwe_guess", JVal.str "c"),
    ("severity", JVal.str "s"), ("confidence", JVal.num ⟨1, 0⟩),
    ("lines", JVal.arr [JVal.num ⟨1, 0⟩]), ("snippet", JVal.str "x"),
    ("evidence", JVal.num ⟨0, 0⟩), ("reasoning", JVal.num ⟨0, 0⟩),
    ("fix", JVal.num ⟨0, 0⟩)]

/-- A valid record whose `lines` value embeds two further valid records. -/
def c1cexRec : JVal :=
  JVal.obj [("path", JVal.str "a"), ("cwe_guess", JVal.str "c"),
    ("severity", JVal.str "s"), ("confidence", JVal.num ⟨1, 0⟩),
    ("lines", JVal.arr [c1inner "b", c1inner "d"]), ("snippet", JVal.str "x"),
    ("evidence", JVal.num ⟨0, 0⟩), ("reasoning", JVal.num ⟨0, 0⟩),
    ("fix", JVal.num ⟨0, 0⟩)]

/-- The serialized inner record. -/
def c1innerText (p : String) : String :=
  "\x7b\"path\":\"" ++ p ++ "\",\"cwe_guess\":\"c\",\"severity\":\"s\"," ++
  "\"confidence\":1,\"lines\":[1],\"snippet\":\"x\",\"evidence\":0," ++
  "\"reasoning\":0,\"fix\":0\x7d"

/-- A text that is exactly a valid JSON array of one well-formed record —
whose `lines` array textually contains two more valid records, so the
bracket scan extracts a strictly higher-scoring candidate. -/
def c1cexText : String :=
  "[\x7b\"path\":\"a\",\"cwe_guess\":\"c\",\"severity\":\"s\",\"confidence\":1," ++
  "\"lines\":[" ++ c1innerText "b" ++ "," ++ c1innerText "d" ++
  "],\"snippet\":\"x\",\"evidence\":0,\"reasoning\":0,\"fix\":0\x7d]"

mutual

/-- Fuel needed to parse the printed form of a value (mutually with lists
and field lists). -/
def szV : JVal → Nat
  | JVal.null => 1
  | JVal.bool _ => 1
  | JVal.num _ => 1
  | JVal.str s => 1 + s.data.length
  | JVal.arr xs => 2 + szL xs
  | JVal.obj fs => 2 + szF fs

def szL : List JVal → Nat
  | [] => 0
  | x :: xs => 1 + szV x + szL xs

def szF : List (String × JVal) → Nat
  | [] => 0
  | f :: fs => 2 + f.1.data.length + szV f.2 + szF fs

end

mutual

/-- Parse normalization of a value: reparsing the printed form of an object
replays its members through the parser's `upsertField` accumulator, so
duplicate keys collapse (last value wins, first position kept).  A value with
no duplicate keys anywhere is a fixed point. -/
def normV : JVal → JVal
  | JVal.null => JVal.null
  | JVal.bool b => JVal.bool b
  | JVal.num x => JVal.num x
  | JVal.str s => JVal.str s
  | JVal.arr xs => JVal.arr (normL xs)
  | JVal.obj fs => JVal.obj (normF [] fs)

def normL : List JVal → List JVal
  | [] => []
  | x :: xs => normV x :: normL xs

def normF : List (String × JVal) → List (String × JVal) → List (String × JVal)
  | acc, [] => acc
  | acc, (k, v) :: fs => normF (upsertField acc k (normV v)) fs

end

/-- A follow-up text that cannot extend a number literal. -/
def numSafe (rest : List Char) : Prop :=
  ∀ c, rest.head? = some c →
    c.isDigit = false ∧ c ≠ '.' ∧ c ≠ 'e' ∧ c ≠ 'E'

mutual

/-- No string values anywhere and every object empty: what the strict reader
can produce from a text in which every quote character is the interior of an
escape sequence. -/
def strFree : JVal → Prop
  | JVal.null => True
  | JVal.bool _ => True
  | JVal.num _ => True
  | JVal.str _ => False
  | JVal.arr xs => strFreeL xs
  | JVal.obj fs => fs = []

def strFreeL : List JVal → Prop
  | [] => True
  | x :: xs => strFree x ∧ strFreeL xs

end

/-- Characters that can never occur past the first position of a
string-literal unit: not a short-escape letter, not `u`, not a hexadecimal
digit.  Brackets, braces, the backtick and the space are all such. -/
def notInterior (c : Char) : Prop :=
  c ≠ '"' ∧ c ≠ '\\' ∧ c ≠ '/' ∧ c ≠ 'b' ∧ c ≠ 'f' ∧ c ≠ 'n' ∧ c ≠ 'r' ∧
  c ≠ 't' ∧ c ≠ 'u' ∧ hexVal c = none

/-- The body of a JSON string literal as the strict reader accepts it: a
sequence of units, each a raw character (not a quote, not a backslash, not a
control character), a two-character short escape, or a six-character
`\uXXXX` escape. -/
inductive StrUnits : List Char → Prop where
  | nil : StrUnits []
  | raw {c : Char} {cs : List Char} : c ≠ '"' → c ≠ '\\' → ¬ c.toNat < 0x20 →
      StrUnits cs → StrUnits (c :: cs)
  | esc {e : Char} {cs : List Char} :
      e = '"' ∨ e = '\\' ∨ e = '/' ∨ e = 'b' ∨ e = 'f' ∨ e = 'n' ∨ e = 'r' ∨ e = 't' →
      StrUnits cs → StrUnits ('\\' :: e :: cs)
  | uesc {h₁ h₂ h₃ h₄ : Char} {cs : List Char} :
      (hexVal h₁).isSome → (hexVal h₂).isSome → (hexVal h₃).isSome →
      (hexVal h₄).isSome →
      StrUnits cs → StrUnits ('\\' :: 'u' :: h₁ :: h₂ :: h₃ :: h₄ :: cs)

/-- The inner JSON document of the C10 witness: one well-formed record. -/
def c10rec : JVal :=
  JVal.obj [("path", JVal.str "a"), ("cwe_guess", JVal.str "c"),
    ("severity", JVal.str "s"), ("confidence", JVal.num ⟨1, 0⟩),
    ("lines", JVal.arr [JVal.num ⟨1, 0⟩]), ("snippet", JVal.str "x"),
    ("evidence", JVal.str "e"), ("reasoning", JVal.str "r"),
    ("fix", JVal.str "f")]

/-- The inner JSON text of the C10 witness. -/
def c10inner : String :=
  "[\x7b\"path\":\"a\",\"cwe_guess\":\"c\",\"severity\":\"s\",\"confidence\":1,\"lines\":[1],\"snippet\":\"x\",\"evidence\":\"e\",\"reasoning\":\"r\",\"fix\":\"f\"\x7d]"

/-- The C10 witness input: the inner document serialized again as a single
JSON string literal. -/
def c10text : String :=
  "\"[\x7b\\\"path\\\":\\\"a\\\",\\\"cwe_guess\\\":\\\"c\\\",\\\"severity\\\":\\\"s\\\",\\\"confidence\\\":1,\\\"lines\\\":[1],\\\"snippet\\\":\\\"x\\\",\\\"evidence\\\":\\\"e\\\",\\\"reasoning\\\":\\\"r\\\",\\\"fix\\\":\\\"f\\\"\x7d]\""

/-! ## Order facts about scores -/

theorem scoreLt_irrefl (a : Score) : ¬ scoreLt a a := by
  obtain ⟨x, y⟩ := a
  simp [scoreLt]

theorem scoreLt_trans {a b c : Score} (h₁ : scoreLt a b) (h₂ : scoreLt b c) :
    scoreLt a c := by
  obtain ⟨a₁, a₂⟩ := a; obtain ⟨b₁, b₂⟩ := b; obtain ⟨c₁, c₂⟩ := c
  simp only [scoreLt] at h₁ h₂ ⊢
  omega

theorem scoreLt_asymm {a b : Score} (h : scoreLt a b) : ¬ scoreLt b a := by
  obtain ⟨a₁, a₂⟩ := a; obtain ⟨b₁, b₂⟩ := b
  simp only [scoreLt] at h ⊢
  omega

theorem scoreLt_right_of_not_left {a b c : Score} (h₁ : ¬ scoreLt a b)
    (h₂ : scoreLt a c) : scoreLt b c := by
  obtain ⟨a₁, a₂⟩ := a; obtain ⟨b₁, b₂⟩ := b; obtain ⟨c₁, c₂⟩ := c
  simp only [scoreLt] at h₁ h₂ ⊢
  omega

theorem fst_le_of_not_scoreLt {a b : Score} (h : ¬ scoreLt a b) : b.1 ≤ a.1 := by
  obtain ⟨a₁, a₂⟩ := a; obtain ⟨b₁, b₂⟩ := b
  simp only [scoreLt] at h
  omega

/-! ## Characterization of the selection loop -/

/-- The selection loop either keeps its starting state (when nothing beats
it), or ends at the first candidate achieving the overall maximum: every
earlier candidate scores strictly below it and no candidate scores above. -/
theorem selLoop_char : ∀ (l : List Cand) (best : Option JVal) (bs : Score),
    (selLoop l best bs = (best, bs) ∧ ∀ c ∈ l, ¬ scoreLt bs (candScore c)) ∨
    (∃ pre c post, l = pre ++ c :: post ∧
      scoreLt bs (candScore c) ∧
      (∀ c' ∈ pre, scoreLt (candScore c') (candScore c)) ∧
      (∀ c' ∈ l, ¬ scoreLt (candScore c) (candScore c')) ∧
      selLoop l best bs = (candArr c, candScore c))
  | [], best, bs => Or.inl ⟨rfl, by simp⟩
  | c :: cs, best, bs => by
    by_cases h : scoreLt bs (candScore c)
    · rcases selLoop_char cs (candArr c) (candScore c) with
        ⟨heq, hall⟩ | ⟨pre, d, post, hdec, hlt, hpre, hmax, heq⟩
      · right
        refine ⟨[], c, cs, by simp, h, by simp, ?_, ?_⟩
        · intro c' hc'
          rcases List.mem_cons.mp hc' with rfl | hc'
          · exact scoreLt_irrefl _
          · exact hall c' hc'
        · simpa [selLoop, h] using heq
      · right
        refine ⟨c :: pre, d, post, by simp [hdec], scoreLt_trans h hlt, ?_, ?_, ?_⟩
        · intro c' hc'
          rcases List.mem_cons.mp hc' with rfl | hc'
          · exact hlt
          · exact hpre c' hc'
        · intro c' hc'
          rcases List.mem_cons.mp hc' with rfl | hc'
          · exact scoreLt_asymm hlt
          · exact hmax c' (hdec ▸ hc')
        · simpa [selLoop, h] using heq
    · rcases selLoop_char cs best bs with
        ⟨heq, hall⟩ | ⟨pre, d, post, hdec, hlt, hpre, hmax, heq⟩
      · left
        refine ⟨by simpa [selLoop, h] using heq, ?_⟩
        intro c' hc'
        rcases List.mem_cons.mp hc' with rfl | hc'
        · exact h
        · exact hall c' hc'
      · right
        refine ⟨c :: pre, d, post, by simp [hdec], hlt, ?_, ?_, ?_⟩
        · intro c' hc'
          rcases List.mem_cons.mp hc' with rfl | hc'
          · exact scoreLt_right_of_not_left h hlt
          · exact hpre c' hc'
        · intro c' hc'
          rcases List.mem_cons.mp hc' with rfl | hc'
          · exact scoreLt_asymm (scoreLt_right_of_not_left h hlt)
          · exact hmax c' (hdec ▸ hc')
        · simpa [selLoop, h] using heq

/-- Loop invariant: the running score is the score of the running best. -/
theorem selLoop_snd_eq : ∀ (l : List Cand) (best : Option JVal) (bs : Score),
    bs = score_array best → (selLoop l best bs).2 = score_array (selLoop l best bs).1
  | [], best, bs, hinv => by simpa [selLoop] using hinv
  | c :: cs, best, bs, hinv => by
    by_cases h : scoreLt bs (candScore c)
    · simpa [selLoop, h] using selLoop_snd_eq cs (candArr c) (candScore c) rfl
    · simpa [selLoop, h] using selLoop_snd_eq cs best bs hinv

/-- If nothing in sight has positive primary score, the loop's final score
has non-positive primary component. -/
theorem selLoop_primary_le : ∀ (l : List Cand) (best : Option JVal) (bs : Score),
    bs.1 ≤ 0 → (∀ c ∈ l, (candScore c).1 ≤ 0) → (selLoop l best bs).2.1 ≤ 0
  | [], best, bs, hb, _ => by simpa [selLoop] using hb
  | c :: cs, best, bs, hb, hl => by
    by_cases h : scoreLt bs (candScore c)
    · simpa [selLoop, h] using
        selLoop_primary_le cs (candArr c) (candScore c) (hl c (by simp))
          (fun c' hc' => hl c' (by simp [hc']))
    · simpa [selLoop, h] using
        selLoop_primary_le cs best bs hb (fun c' hc' => hl c' (by simp [hc']))

/-- A positive primary score forces the scored value to be an array. -/
theorem score_pos_arr {o : Option JVal} (h : 0 < (score_array o).1) :
    ∃ xs, o = some (JVal.arr xs) := by
  match o with
  | none => simp [score_array] at h
  | some JVal.null => simp [score_array] at h
  | some (JVal.bool b) => simp [score_array] at h
  | some (JVal.num n) => simp [score_array] at h
  | some (JVal.str s) => simp [score_array] at h
  | some (JVal.obj fs) => simp [score_array] at h
  | some (JVal.arr xs) => exact ⟨xs, rfl⟩

/-- **C2.**  For every input text: when some candidate has positive primary
score, the strict engine retains the first candidate (in generation order)
whose score is strictly greater than every earlier candidate's and at least
every candidate's; the selection stage's accepted result is exactly that
candidate's unwrapped array (`best_pair`), and the engine's output is that
array (snippet post-processing applied).  When no candidate has positive
primary score the result is the empty sequence — a normal outcome, not an
error. -/
theorem c2_strict_selection (text : String) :
    ((∃ c ∈ json_candidates text, 0 < (candScore c).1) →
      ∃ pre c post, json_candidates text = pre ++ c :: post ∧
        (∀ c' ∈ pre, scoreLt (candScore c') (candScore c)) ∧
        (∀ c' ∈ json_candidates text, ¬ scoreLt (candScore c) (candScore c')) ∧
        0 < (candScore c).1 ∧
        (best_pair text).1 = candArr c ∧
        ∃ xs, candArr c = some (JVal.arr xs) ∧ best_findings text = truncList xs) ∧
    ((∀ c ∈ json_candidates text, (candScore c).1 ≤ 0) → best_findings text = []) := by
  constructor
  · rintro ⟨c₀, hc₀, hpos⟩
    rcases selLoop_char (json_candidates text) none (-1, 0) with
      ⟨heq, hall⟩ | ⟨pre, c, post, hdec, hlt, hpre, hmax, heq⟩
    · exact absurd (show scoreLt (-1, 0) (candScore c₀) from Or.inl (by omega))
        (hall c₀ hc₀)
    · have hbp : best_pair text = (candArr c, candScore c) := heq
      have hwin : 0 < (candScore c).1 := by
        have h1 := fst_le_of_not_scoreLt (hmax c₀ hc₀)
        omega
      refine ⟨pre, c, post, hdec, hpre, hmax, hwin, by simp [hbp], ?_⟩
      have hpos' : 0 < (score_array (candArr c)).1 := hwin
      rcases score_pos_arr hpos' with ⟨xs, hxs⟩
      refine ⟨xs, hxs, ?_⟩
      rw [hxs] at hbp hpos'
      simp [best_findings, hbp, hpos']
  · intro hall
    have h2 := selLoop_primary_le (json_candidates text) none (-1, 0) (by norm_num) hall
    have h3 := selLoop_snd_eq (json_candidates text) none (-1, 0) rfl
    rcases hbp : best_pair text with ⟨b, s⟩
    have hbp' : selLoop (json_candidates text) none (-1, 0) = (b, s) := hbp
    rw [hbp'] at h2 h3
    match b, h3 with
    | none, _ => simp [best_findings, hbp]
    | some v, h3 =>
      have h3' : s = score_array (some v) := by simpa using h3
      have h2' : s.1 ≤ 0 := by simpa using h2
      have hle : ¬ 0 < (score_array (some v)).1 := by
        rw [← h3']
        omega
      simp [best_findings, hbp, hle]

/-- Witness for C2: the input `"[1, 2]"` parses as an array of non-dict
elements, so every candidate scores non-positively and the engine yields the
empty array. -/
theorem c2_strict_selection_witness : best_findings "[1, 2]" = [] :=
  (c2_strict_selection "[1, 2]").2 (by decide)

/-! ## C3: the scoring function -/

theorem validFinding_isDict {v : JVal} (h : validFinding v = true) :
    isDict v = true := by
  cases v <;> simp [validFinding, isDict] at *

/-- **C3 (amended).**  `score_array` maps a list to the pair (count of
elements passing the strict schema, count of mapping elements) and every
non-list — Python `None` included — to `(-1, 0)`; scores compare
lexicographically, so `(1,1) < (3,5)`.  Amendment forced by the
counterexample: the schema's `confidence` check is
`isinstance(x, (int, float))`, and CPython's `bool` is a subclass of `int`,
so a boolean `confidence` also passes — "numeric" in the claim must read
"numeric or boolean". -/
theorem c3_score_array_amended :
    (∀ xs : List JVal, score_array (some (JVal.arr xs)) =
        (((xs.filter validFinding).length : Int), ((xs.filter isDict).length : Int))) ∧
    (∀ o : Option JVal, (∀ xs, o ≠ some (JVal.arr xs)) → score_array o = (-1, 0)) ∧
    scoreLt (1, 1) (3, 5) := by
  refine ⟨?_, ?_, Or.inl (by norm_num)⟩
  · intro xs
    have hfil : xs.filter validFinding = (xs.filter isDict).filter validFinding := by
      rw [List.filter_filter]
      apply (List.filter_congr ?_).symm
      intro a _
      cases hv : validFinding a
      · simp [hv]
      · simp [hv, validFinding_isDict hv]
    by_cases he : (xs.filter isDict).isEmpty
    · have hnil : xs.filter isDict = [] := List.isEmpty_iff.mp he
      simp [score_array, he, hfil, hnil]
    · simp [score_array, he, hfil]
  · intro o ho
    match o with
    | none => rfl
    | some JVal.null => rfl
    | some (JVal.bool b) => rfl
    | some (JVal.num n) => rfl
    | some (JVal.str s) => rfl
    | some (JVal.obj fs) => rfl
    | some (JVal.arr xs) => exact absurd rfl (ho xs)

/-- Witness for C3: concrete instances of both characterization clauses. -/
theorem c3_score_array_amended_witness :
    score_array (some (JVal.arr [JVal.num ⟨1, 0⟩])) = (0, 0) ∧
    score_array (some JVal.null) = (-1, 0) :=
  ⟨(c3_score_array_amended.1 [JVal.num ⟨1, 0⟩]).trans (by decide),
   c3_score_array_amended.2.1 (some JVal.null) (fun xs h => by simp at h)⟩

/-- Counterexample to C3 as stated: on `[c3cex]` the code scores primary 1
(the boolean confidence passes `isinstance(x, (int, float))`), while the
claim's formula — confidence *numeric* — counts zero valid records. -/
theorem c3_counterexample :
    score_array (some (JVal.arr [c3cex])) = (1, 1) ∧
    ([c3cex].filter specValidFinding).length = 0 := by
  constructor
  · decide
  · decide


/-! ## C5: snippet truncation is a frame-preserving copy -/

theorem lookup_upsert_self : ∀ (fs : List (String × JVal)) (k : String) (v : JVal),
    lookupField (upsertField fs k v) k = some v
  | [], k, v => by simp [upsertField, lookupField]
  | (k₁, w) :: rest, k, v => by
    by_cases h : k₁ = k
    · simp [upsertField, h, lookupField]
    · simp [upsertField, h, lookupField, lookup_upsert_self rest k v]

theorem lookup_upsert_ne : ∀ (fs : List (String × JVal)) (k : String) (v : JVal)
    (k' : String), k' ≠ k → lookupField (upsertField fs k v) k' = lookupField fs k'
  | [], k, v, k', h => by simp [upsertField, lookupField, Ne.symm h]
  | (k₁, w) :: rest, k, v, k', h => by
    by_cases h₁ : k₁ = k
    · subst h₁
      simp [upsertField, lookupField, Ne.symm h]
    · simp [upsertField, h₁, lookupField, lookup_upsert_ne rest k v k' h]

theorem map_fst_upsert : ∀ (fs : List (String × JVal)) (k : String) (v : JVal),
    (lookupField fs k).isSome →
    (upsertField fs k v).map Prod.fst = fs.map Prod.fst
  | [], k, v, h => by simp [lookupField] at h
  | (k₁, w) :: rest, k, v, h => by
    by_cases h₁ : k₁ = k
    · simp [upsertField, h₁]
    · have h' : (lookupField rest k).isSome := by
        simpa [lookupField, h₁] using h
      simp [upsertField, h₁, map_fst_upsert rest k v h']

/-- Each element is related to its truncation image. -/
theorem truncElem_rel : ∀ a : JVal, snippetTruncRel a (truncElem a) := by
  intro a
  match a with
  | JVal.null => exact Or.inr ⟨rfl, by rintro ⟨fs, sn, h, -⟩; cases h⟩
  | JVal.bool b => exact Or.inr ⟨rfl, by rintro ⟨fs, sn, h, -⟩; cases h⟩
  | JVal.num n => exact Or.inr ⟨rfl, by rintro ⟨fs, sn, h, -⟩; cases h⟩
  | JVal.str s => exact Or.inr ⟨rfl, by rintro ⟨fs, sn, h, -⟩; cases h⟩
  | JVal.arr xs => exact Or.inr ⟨rfl, by rintro ⟨fs, sn, h, -⟩; cases h⟩
  | JVal.obj fs =>
    cases hlk : lookupField fs "snippet" with
    | none =>
      refine Or.inr ⟨by simp [truncElem, hlk], ?_⟩
      rintro ⟨fs', sn', heq, hl, -⟩
      cases heq
      rw [hlk] at hl
      cases hl
    | some v =>
      match v with
      | JVal.null | JVal.bool _ | JVal.num _ | JVal.arr _ | JVal.obj _ =>
        refine Or.inr ⟨by simp [truncElem, hlk], ?_⟩
        · rintro ⟨fs', sn', heq, hl, -⟩
          cases heq
          rw [hlk] at hl
          cases hl
      | JVal.str sn =>
        by_cases hlen : 1600 < sn.length
        · refine Or.inl ⟨fs, sn, rfl, hlk, hlen,
            upsertField fs "snippet"
              (JVal.str (String.mk (sn.data.take 1600) ++ truncMark)),
            by simp [truncElem, hlk, hlen], lookup_upsert_self fs _ _,
            fun k hk => lookup_upsert_ne fs _ _ k hk, ?_⟩
          exact map_fst_upsert fs _ _ (by simp [hlk])
        · refine Or.inr ⟨by simp [truncElem, hlk, hlen], ?_⟩
          rintro ⟨fs', sn', heq, hl, hlen'⟩
          cases heq
          rw [hlk] at hl
          cases hl
          exact hlen hlen'

/-- **C5.**  The accepted result is post-processed elementwise: its length and
order are kept, every long-snippet mapping is replaced by a truncated copy
that agrees with the original on all other fields and on key order, and every
other element is passed through unchanged.  (The transform builds a new list
and new objects — the accepted value itself is never mutated, which in this
pure model holds by construction.) -/
theorem c5_truncation_frame (text : String) :
    (∀ v xs, (best_pair text).1 = some v → 0 < (score_array (some v)).1 →
      v = JVal.arr xs → best_findings text = truncList xs) ∧
    (∀ xs : List JVal,
      (truncList xs).length = xs.length ∧
      List.Forall₂ snippetTruncRel xs (truncList xs)) := by
  constructor
  · intro v xs h1 h2 h3
    subst h3
    rcases hbp : best_pair text with ⟨b, s⟩
    rw [hbp] at h1
    simp only at h1
    subst h1
    simp [best_findings, hbp, h2]
  · intro xs
    refine ⟨by simp [truncList], ?_⟩
    induction xs with
    | nil => exact List.Forall₂.nil
    | cons a rest ih => exact List.Forall₂.cons (truncElem_rel a) ih

set_option maxRecDepth 60000 in
/-- Witness for C5: the tie-in hypotheses discharged on the concrete accepted
input `recTextA`, and the frame relation instantiated on a record whose
snippet has 1601 characters. -/
theorem c5_truncation_frame_witness :
    best_findings recTextA = truncList [recA] ∧
    List.Forall₂ snippetTruncRel [c5rec] (truncList [c5rec]) :=
  ⟨(c5_truncation_frame recTextA).1 (JVal.arr [recA]) [recA] (by rfl) (by decide) rfl,
   ((c5_truncation_frame recTextA).2 [c5rec]).2⟩

/-! ## C6: the findings-pattern scan yields only shape-conforming matches -/

theorem skipPyWs_spec : ∀ cs : List Char,
    (skipPyWs cs).1 ++ (skipPyWs cs).2 = cs ∧ pyWsOnly (skipPyWs cs).1
  | [] => by simp [skipPyWs, pyWsOnly]
  | c :: cs => by
    have ih := skipPyWs_spec cs
    by_cases hc : isPyWs c
    · refine ⟨by simp [skipPyWs, hc, ih.1], ?_⟩
      intro d hd
      simp only [skipPyWs, hc, if_pos] at hd
      rcases List.mem_cons.mp hd with rfl | hd'
      · exact hc
      · exact ih.2 d hd'
    · refine ⟨by simp [skipPyWs, hc], ?_⟩
      intro d hd
      simp [skipPyWs, hc] at hd

theorem braceRun_spec : ∀ cs : List Char,
    (braceRun cs).1 ++ (braceRun cs).2 = cs ∧ braceFree (braceRun cs).1
  | [] => by simp [braceRun, braceFree]
  | c :: cs => by
    have ih := braceRun_spec cs
    by_cases hc : c = '\x7b' ∨ c = '\x7d'
    · refine ⟨by simp [braceRun, hc], ?_⟩
      intro d hd
      simp [braceRun, hc] at hd
    · refine ⟨by simp [braceRun, hc, ih.1], ?_⟩
      intro d hd
      simp only [braceRun, if_neg hc] at hd
      rcases List.mem_cons.mp hd with rfl | hd'
      · exact ⟨fun h => hc (Or.inl h), fun h => hc (Or.inr h)⟩
      · exact ih.2 d hd'

theorem dropLit_spec : ∀ (p cs rest : List Char), dropLit p cs = some rest →
    cs = p ++ rest
  | [], cs, rest, h => by simpa [dropLit] using Option.some.inj h
  | p :: ps, [], rest, h => by simp [dropLit] at h
  | p :: ps, c :: cs, rest, h => by
    by_cases hc : c = p
    · subst hc
      simp only [dropLit, if_pos rfl] at h
      simpa using dropLit_spec ps cs rest h
    · simp [dropLit, hc] at h

theorem closeBrace_spec {cs cp rest : List Char}
    (h : closeBrace cs = some (cp, rest)) :
    cs = cp ++ ('\x7d' :: rest) ∧ braceFree cp := by
  have hbr := braceRun_spec cs
  rcases hr : (braceRun cs).2 with _ | ⟨c, r₂⟩
  · simp [closeBrace, hr] at h
  · by_cases hc : c = '\x7d'
    · subst hc
      obtain ⟨h1, h2⟩ : (braceRun cs).1 = cp ∧ r₂ = rest := by
        simpa [closeBrace, hr] using h
      refine ⟨?_, h1 ▸ hbr.2⟩
      rw [← h1, ← h2, ← hr]
      exact hbr.1.symm
    · simp [closeBrace, hr, hc] at h

theorem lazyClose_spec : ∀ (cs b cp rest : List Char),
    lazyClose cs = some (b, cp, rest) →
    cs = b ++ (']' :: (cp ++ ('\x7d' :: rest))) ∧ braceFree cp
  | [], b, cp, rest, h => by simp [lazyClose] at h
  | c :: cs, b, cp, rest, h => by
    by_cases hc : c = ']'
    · subst hc
      rcases hcb : closeBrace cs with _ | ⟨cp₀, rest₀⟩
      · rcases hlz : lazyClose cs with _ | ⟨⟨b₀, cp₁, rest₁⟩⟩
        · simp [lazyClose, hcb, hlz] at h
        · obtain ⟨hb, hcp, hrest⟩ : ']' :: b₀ = b ∧ cp₁ = cp ∧ rest₁ = rest := by
            simpa [lazyClose, hcb, hlz] using h
          have ih := lazyClose_spec cs b₀ cp₁ rest₁ hlz
          refine ⟨?_, hcp ▸ ih.2⟩
          rw [← hb, ← hcp, ← hrest, List.cons_append, ← ih.1]
      · obtain ⟨hb, hcp, hrest⟩ : ([] : List Char) = b ∧ cp₀ = cp ∧ rest₀ = rest := by
          simpa [lazyClose, hcb] using h
        have hs := closeBrace_spec hcb
        refine ⟨?_, hcp ▸ hs.2⟩
        rw [← hb, ← hcp, ← hrest, List.nil_append, ← hs.1]
    · rcases hlz : lazyClose cs with _ | ⟨⟨b₀, cp₁, rest₁⟩⟩
      · simp [lazyClose, hc, hlz] at h
      · obtain ⟨hb, hcp, hrest⟩ : c :: b₀ = b ∧ cp₁ = cp ∧ rest₁ = rest := by
          simpa [lazyClose, hc, hlz] using h
        have ih := lazyClose_spec cs b₀ cp₁ rest₁ hlz
        refine ⟨?_, hcp ▸ ih.2⟩
        rw [← hb, ← hcp, ← hrest, List.cons_append, ← ih.1]

theorem afterKey_spec {cs w₁ w₂ r₃ : List Char}
    (h : afterKey cs = some (w₁, w₂, r₃)) :
    cs = w₁ ++ (':' :: (w₂ ++ ('[' :: r₃))) ∧ pyWsOnly w₁ ∧ pyWsOnly w₂ := by
  have h₁ := skipPyWs_spec cs
  rcases hr₁ : (skipPyWs cs).2 with _ | ⟨c, r₁⟩
  · simp [afterKey, hr₁] at h
  · by_cases hc : c = ':'
    · subst hc
      have h₂ := skipPyWs_spec r₁
      rcases hr₂ : (skipPyWs r₁).2 with _ | ⟨d, r₃'⟩
      · simp [afterKey, hr₁, hr₂] at h
      · by_cases hd : d = '['
        · subst hd
          obtain ⟨ha, hb, hrr⟩ :
              (skipPyWs cs).1 = w₁ ∧ (skipPyWs r₁).1 = w₂ ∧ r₃' = r₃ := by
            simpa [afterKey, hr₁, hr₂] using h
          refine ⟨?_, ha ▸ h₁.2, hb ▸ h₂.2⟩
          rw [← ha, ← hb, ← hrr]
          have hmid : r₁ = (skipPyWs r₁).1 ++ ('[' :: r₃') := by
            conv_lhs => rw [← h₂.1]
            rw [hr₂]
          calc cs = (skipPyWs cs).1 ++ (skipPyWs cs).2 := h₁.1.symm
            _ = (skipPyWs cs).1 ++ (':' :: r₁) := by rw [hr₁]
            _ = (skipPyWs cs).1 ++ (':' :: ((skipPyWs r₁).1 ++ ('[' :: r₃'))) :=
                  congrArg (fun t => (skipPyWs cs).1 ++ (':' :: t)) hmid
        · simp [afterKey, hr₁, hr₂, hd] at h
    · simp [afterKey, hr₁, hc] at h

theorem tryKeyAt_spec {cs m rest : List Char}
    (h : tryKeyAt cs = some (m, rest)) :
    cs = m ++ rest ∧ keyShape m := by
  rcases hlit : dropLit keyLit cs with _ | afterK
  · simp [tryKeyAt, hlit] at h
  · rcases hak : afterKey afterK with _ | ⟨⟨w₁, w₂, r₃⟩⟩
    · simp [tryKeyAt, hlit, hak] at h
    · rcases hlz : lazyClose r₃ with _ | ⟨⟨b, cp, rest₀⟩⟩
      · simp [tryKeyAt, hlit, hak, hlz] at h
      · obtain ⟨hm, hr⟩ :
          keyLit ++ w₁ ++ ':' :: w₂ ++ '[' :: b ++ ']' :: cp ++ ['\x7d'] = m ∧
            rest₀ = rest := by
          simpa [tryKeyAt, hlit, hak, hlz] using h
        have hl := dropLit_spec keyLit cs afterK hlit
        have ha := afterKey_spec hak
        have hz := lazyClose_spec r₃ b cp rest₀ hlz
        constructor
        · rw [← hm, ← hr, hl, ha.1, hz.1]
          simp
        · refine ⟨w₁, w₂, b, cp, ?_, ha.2.1, ha.2.2, hz.2⟩
          rw [← hm]
          simp

theorem searchA_spec : ∀ (t a m r : List Char),
    searchA t = some (a, m, r) →
    t = a ++ (m ++ r) ∧ braceFree a ∧ keyShape m
  | [], a, m, r, h => by simp [searchA] at h
  | c :: cs, a, m, r, h => by
    by_cases hc : c = '\x7b' ∨ c = '\x7d'
    · simp [searchA, hc] at h
    · rcases hs : searchA cs with _ | ⟨⟨a₀, m₀, r₀⟩⟩
      · rcases hk : tryKeyAt (c :: cs) with _ | ⟨⟨m₁, r₁⟩⟩
        · simp [searchA, hc, hs, hk] at h
        · obtain ⟨hae, hme, hre⟩ : ([] : List Char) = a ∧ m₁ = m ∧ r₁ = r := by
            simpa [searchA, hc, hs, hk] using h
          have hts := tryKeyAt_spec hk
          refine ⟨?_, by rw [← hae]; simp [braceFree], hme ▸ hts.2⟩
          rw [← hae, ← hme, ← hre, List.nil_append]
          exact hts.1
      · obtain ⟨hae, hme, hre⟩ : c :: a₀ = a ∧ m₀ = m ∧ r₀ = r := by
          simpa [searchA, hc, hs] using h
        have ih := searchA_spec cs a₀ m₀ r₀ hs
        refine ⟨?_, ?_, hme ▸ ih.2.2⟩
        · rw [← hae, ← hme, ← hre, List.cons_append, ← ih.1]
        · intro d hd
          rw [← hae] at hd
          rcases List.mem_cons.mp hd with rfl | hd'
          · exact ⟨fun hh => hc (Or.inl hh), fun hh => hc (Or.inr hh)⟩
          · exact ih.2.1 d hd'

theorem matchFindingsAt_spec {cs m rest : List Char}
    (h : matchFindingsAt cs = some (m, rest)) :
    cs = m ++ rest ∧ findingsShape m := by
  rcases cs with _ | ⟨c, t⟩
  · simp [matchFindingsAt] at h
  · by_cases hc : c = '\x7b'
    · subst hc
      rcases hs : searchA t with _ | ⟨⟨a, m₀, r⟩⟩
      · simp [matchFindingsAt, hs] at h
      · obtain ⟨hme, hre⟩ : '\x7b' :: (a ++ m₀) = m ∧ r = rest := by
          simpa [matchFindingsAt, hs] using h
        have hsp := searchA_spec t a m₀ r hs
        constructor
        · rw [← hme, ← hre, List.cons_append, List.append_assoc, ← hsp.1]
        · exact ⟨a, m₀, hme.symm, hsp.2.1, hsp.2.2⟩
    · simp [matchFindingsAt, hc] at h

theorem findingsScanAux_spec : ∀ (fuel : Nat) (cs : List Char) (frag : String),
    frag ∈ findingsScanAux fuel cs →
    ∃ pre m post, cs = pre ++ (m ++ post) ∧ frag = String.mk m ∧ findingsShape m
  | 0, cs, frag, h => by simp [findingsScanAux] at h
  | fuel + 1, [], frag, h => by simp [findingsScanAux] at h
  | fuel + 1, c :: cs, frag, h => by
    rcases hm : matchFindingsAt (c :: cs) with _ | ⟨⟨m₀, rest⟩⟩
    · simp only [findingsScanAux, hm] at h
      obtain ⟨pre, m, post, hdec, hfrag, hshape⟩ :=
        findingsScanAux_spec fuel cs frag h
      exact ⟨c :: pre, m, post, by rw [List.cons_append, ← hdec], hfrag, hshape⟩
    · simp only [findingsScanAux, hm] at h
      rcases List.mem_cons.mp h with rfl | h'
      · exact ⟨[], m₀, rest, by simpa using (matchFindingsAt_spec hm).1, rfl,
          (matchFindingsAt_spec hm).2⟩
      · obtain ⟨pre, m, post, hdec, hfrag, hshape⟩ :=
          findingsScanAux_spec fuel rest frag h'
        refine ⟨m₀ ++ pre, m, post, ?_, hfrag, hshape⟩
        rw [(matchFindingsAt_spec hm).1, hdec]
        simp

/-- **C6 (amended).**  Every fragment the object-with-findings scan yields is
a substring of the text of the shape `{ A "findings" W₁ : W₂ [ B ] C }` where
the wrapper regions `A` and `C` contain no `{` or `}` characters and `W₁`,
`W₂` are whitespace.  The bracketed findings content `B` is *not* brace-free:
nested objects inside the findings array are matched whole (see the
counterexample), while nested objects in the wrapper outside the array make
the match fail or truncate. -/
theorem c6_findings_scan_shape (text : String) :
    ∀ frag ∈ findingsScan text, ∃ pre m post,
      text.data = pre ++ (m ++ post) ∧ frag = String.mk m ∧ findingsShape m :=
  fun frag h => findingsScanAux_spec (text.length + 1) text.data frag h

/-- Witness for C6: the shape instantiated by the concrete match on `c6cex`. -/
theorem c6_findings_scan_shape_witness :
    ∃ pre m post, c6cex.data = pre ++ (m ++ post) ∧ c6cex = String.mk m ∧
      findingsShape m :=
  c6_findings_scan_shape c6cex c6cex (by decide)

/-- Counterexample to C6 as stated: the scan yields the whole of
`{"findings":[{"a":1}]}`, whose interior — the content between the outer
braces — contains both `{` and `}`; the claim's "interior contains no nested
brace characters" is false, brace freedom holds only outside the bracketed
findings array. -/
theorem c6_counterexample :
    findingsScan c6cex = [c6cex] ∧
    (c6cex.data.drop 1).dropLast.contains '\x7b' = true ∧
    (c6cex.data.drop 1).dropLast.contains '\x7d' = true :=
  ⟨by decide, by decide, by decide⟩

/-! ## C8: the lenient engine's last-array fallback -/

/-- **C8.**  When the whole-text parse yields neither an array nor an object
with a findings array (`try_top_struct` fails) and no envelope unwrap applies
(`try_message_content` yields nothing or the empty string, which `if inner:`
skips), the lenient engine returns the most recently closed top-level bracket
span if it parses as a JSON array (`last_array`), and the empty array — a
normal outcome, not an error — when no strategy yields an array. -/
theorem c8_lenient_fallback (s : String)
    (h1 : try_top_struct s = none)
    (h2 : ∀ inner, try_message_content s = some inner → inner = "") :
    lenient_result s = match last_array s with
      | some arr => arr
      | none => [] := by
  unfold lenient_result
  rw [h1]
  rcases htmc : try_message_content s with _ | inner
  · rfl
  · have he : inner = "" := h2 inner htmc
    subst he
    rfl

/-- Witness for C8: prose containing `[1,2,3]` yields `[1,2,3]`, and fully
non-bracketed prose yields `[]`. -/
theorem c8_lenient_fallback_witness :
    lenient_result c8text = [JVal.num ⟨1, 0⟩, JVal.num ⟨2, 0⟩, JVal.num ⟨3, 0⟩] ∧
    lenient_result c8prose = [] := by
  constructor
  · have h := c8_lenient_fallback c8text (by rfl)
      (fun inner hin => by
        rw [show try_message_content c8text = none from by decide] at hin
        cases hin)
    rw [h]
    rfl
  · have h := c8_lenient_fallback c8prose (by rfl)
      (fun inner hin => by
        rw [show try_message_content c8prose = none from by decide] at hin
        cases hin)
    rw [h]
    rfl

/-! ## C9: the envelope unwrap -/

set_option maxRecDepth 100000 in
/-- **C9.**  Strategy 2 parses the whole text as an object and yields, for
the wrapper keys in the fixed order `message, output, response, content,
text`, exactly the claim's per-key rule (string `content` of a dict value,
or the value itself when it is a string), and yields nothing when the text
does not parse to an object; it does not recurse — each yield is one text
run once through candidate loading.  In particular the claim's wrapper input
`{"message": {"content": "<one valid record array>"}}` makes the whole
engine return exactly the embedded record. -/
theorem c9_envelope_unwrap :
    (∀ (text : String) (fs : List (String × JVal)),
      json_loads text = some (JVal.obj fs) →
      strat2 text =
        ["message", "output", "response", "content", "text"].filterMap
          (specEnvelopeYield fs)) ∧
    (∀ text : String, (∀ fs, json_loads text ≠ some (JVal.obj fs)) →
      strat2 text = []) ∧
    best_findings c9wrap = [recA] := by
  refine ⟨?_, ?_, by rfl⟩
  · intro text fs h
    unfold strat2
    rw [h]
    rfl
  · intro text hne
    unfold strat2
    rcases hj : json_loads text with _ | v
    · rfl
    · match v with
      | JVal.obj fs => exact absurd hj (hne fs)
      | JVal.null => rfl
      | JVal.bool _ => rfl
      | JVal.num _ => rfl
      | JVal.str _ => rfl
      | JVal.arr _ => rfl

set_option maxRecDepth 100000 in
/-- Witness for C9: the object-parse hypothesis discharged on the concrete
wrapper input; the five keys yield exactly the embedded record-array text. -/
theorem c9_envelope_unwrap_witness :
    strat2 c9wrap = [Cand.frag recTextA] :=
  (c9_envelope_unwrap.1 c9wrap
    [("message", JVal.obj [("content", JVal.str recTextA)])] (by rfl)).trans
    (by rfl)

/-! ## C1: round-trip of a valid record array -/

set_option maxRecDepth 200000 in
/-- Counterexample to C1 as stated: `c1cexText` is exactly a valid JSON
array of N = 1 well-formed Finding Record, yet the engine's output is not
that record (truncation applied or not) and the selected primary score is 2,
not N: the bracket scan extracts the record's `lines` array, which parses as
an array of two valid records and scores `(2,2) > (1,1)`. -/
theorem c1_counterexample :
    json_loads c1cexText = some (JVal.arr [c1cexRec]) ∧
    validFinding c1cexRec = true ∧
    (best_findings c1cexText).length = 2 ∧
    best_findings c1cexText ≠ truncList [c1cexRec] ∧
    (best_pair c1cexText).2.1 = 2 := by
  refine ⟨by rfl, by decide, by decide, ?_, by decide⟩
  intro h
  have hlen := congrArg List.length h
  rw [show (best_findings c1cexText).length = 2 from by decide] at hlen
  simp [truncList] at hlen

theorem filter_all_eq {p : JVal → Bool} {l : List JVal}
    (h : l.all p = true) : l.filter p = l :=
  List.filter_eq_self.mpr (fun a ha => List.all_eq_true.mp h a ha)

/-- **C1 (amended).**  For every input text that is exactly a valid JSON
array of N ≥ 1 well-formed Finding Records, *provided no generated candidate
scores strictly above `(N, N)`* — the condition the counterexample shows is
necessary, violated when records embed further valid records in their values
— the strict engine's output is the same N records with snippet truncation
applied, and the selected candidate's score is exactly `(N, N)`, so its
primary score equals N. -/
theorem c1_roundtrip_amended (text : String) (recs : List JVal)
    (hparse : json_loads text = some (JVal.arr recs))
    (hvalid : recs.all validFinding = true)
    (hne : recs ≠ [])
    (hnobeat : ∀ c ∈ json_candidates text,
      ¬ scoreLt ((recs.length : Int), (recs.length : Int)) (candScore c)) :
    best_findings text = truncList recs ∧
    (best_pair text).2 = ((recs.length : Int), (recs.length : Int)) := by
  have hd : recs.filter isDict = recs :=
    List.filter_eq_self.mpr
      (fun a ha => validFinding_isDict (List.all_eq_true.mp hvalid a ha))
  have hv : recs.filter validFinding = recs := filter_all_eq hvalid
  have hscore : candScore (Cand.val (JVal.arr recs)) =
      ((recs.length : Int), (recs.length : Int)) := by
    have hne' : recs.isEmpty = false := List.isEmpty_eq_false.mpr hne
    simp [candScore, candArr, load_json, unwrapFindings, score_array, hd, hv, hne']
  have hlist : ∃ rest, json_candidates text = Cand.val (JVal.arr recs) :: rest := by
    refine ⟨strat2 text ++ (fenceScan text).map Cand.frag ++
      (findingsScan text).map Cand.frag ++ strat5 text, ?_⟩
    simp [json_candidates, strat1, hparse]
  obtain ⟨rest, hjc⟩ := hlist
  have hmem0 : Cand.val (JVal.arr recs) ∈ json_candidates text := by
    rw [hjc]
    exact List.mem_cons_self _ _
  have hposN : (0 : Int) < (recs.length : Int) := by
    have : 0 < recs.length := List.length_pos.mpr hne
    exact_mod_cast this
  rcases selLoop_char (json_candidates text) none (-1, 0) with
    ⟨heq, hall⟩ | ⟨pre, c, post, hdec, hlt, hpre, hmax, heq⟩
  · exact absurd (show scoreLt (-1, 0) (candScore (Cand.val (JVal.arr recs))) by
      rw [hscore]
      exact Or.inl (by omega)) (hall _ hmem0)
  · have hpre_nil : pre = [] := by
      rcases pre with _ | ⟨p₀, ps⟩
      · rfl
      · exfalso
        have hp0 : p₀ = Cand.val (JVal.arr recs) := by
          have : (json_candidates text).head? = some p₀ := by
            rw [hdec]
            rfl
          rw [hjc] at this
          simpa using this.symm
        have h1 := hpre p₀ (by simp)
        rw [hp0, hscore] at h1
        exact hnobeat c (by rw [hdec]; simp) h1
    subst hpre_nil
    have hc0 : c = Cand.val (JVal.arr recs) := by
      have : (json_candidates text).head? = some c := by
        rw [hdec]
        rfl
      rw [hjc] at this
      simpa using this.symm
    subst hc0
    have hbp : best_pair text =
        (some (JVal.arr recs), ((recs.length : Int), (recs.length : Int))) := by
      show selLoop (json_candidates text) none (-1, 0) = _
      rw [heq, hscore]
      have : candArr (Cand.val (JVal.arr recs)) = some (JVal.arr recs) := rfl
      rw [this]
    constructor
    · have hacc : 0 < (score_array (some (JVal.arr recs))).1 := by
        have : score_array (some (JVal.arr recs)) =
            ((recs.length : Int), (recs.length : Int)) := by
          simpa [candScore, candArr, load_json, unwrapFindings] using hscore
        rw [this]
        exact hposN
      simp [best_findings, hbp, hacc]
    · rw [hbp]

set_option maxRecDepth 100000 in
/-- Witness for C1: the amended theorem's hypotheses discharged on
`recTextA`, a valid single-record array with no competing candidate. -/
theorem c1_roundtrip_amended_witness :
    best_findings recTextA = truncList [recA] ∧
    (best_pair recTextA).2 = (1, 1) :=
  c1_roundtrip_amended recTextA [recA] (by rfl) (by decide) (by simp)
    (by decide)

/-! ## C4 groundwork: printing parses back -/

theorem toNat_ofNat_valid {n : Nat} (h : n.isValidChar) :
    (Char.ofNat n).toNat = n := by
  rw [Char.ofNat, dif_pos h]
  rfl

theorem toNat_ofNat_small {n : Nat} (h : n < 0xd800) :
    (Char.ofNat n).toNat = n :=
  toNat_ofNat_valid (Or.inl h)

theorem skipWs_append {w : List Char} (cs : List Char)
    (hw : ∀ c ∈ w, isJsonWs c = true) : skipWs (w ++ cs) = skipWs cs := by
  induction w with
  | nil => rfl
  | cons c w ih =>
    have hc := hw c (by simp)
    simp only [List.cons_append, skipWs, hc, if_pos]
    exact ih (fun d hd => hw d (by simp [hd]))

theorem skipWs_not {c : Char} (cs : List Char) (hc : isJsonWs c = false) :
    skipWs (c :: cs) = c :: cs := by
  simp [skipWs, hc]

theorem indentChars_ws (lvl : Nat) : ∀ c ∈ indentChars lvl, isJsonWs c = true := by
  intro c hc
  rw [indentChars] at hc
  rw [List.eq_of_mem_replicate hc]
  rfl

theorem pjValue_ws (fuel : Nat) {w : List Char} (cs : List Char)
    (hw : ∀ c ∈ w, isJsonWs c = true) :
    pjValue fuel (w ++ cs) = pjValue fuel cs := by
  cases fuel with
  | zero => rfl
  | succ fuel =>
    show pjValue (fuel + 1) (w ++ cs) = pjValue (fuel + 1) cs
    rw [pjValue, pjValue, skipWs_append cs hw]

theorem digitRun_append {ds : List Char} (rest : List Char)
    (hd : ∀ c ∈ ds, c.isDigit = true)
    (hr : ∀ c, rest.head? = some c → c.isDigit = false) :
    digitRun (ds ++ rest) = (ds, rest) := by
  induction ds with
  | nil =>
    simp only [List.nil_append]
    cases rest with
    | nil => rfl
    | cons c t =>
      have := hr c rfl
      simp [digitRun, this]
  | cons c ds ih =>
    have hc := hd c (by simp)
    have ih' := ih (fun d hdd => hd d (by simp [hdd]))
    simp [digitRun, hc, ih']

theorem natDigits_ne_nil (n : Nat) : natDigits n ≠ [] := by
  rw [natDigits]
  by_cases h : n < 10
  · simp [h]
  · simp [h]

theorem digitChar_isDigit {n : Nat} (h : n < 10) :
    (Char.ofNat (48 + n)).isDigit = true := by
  interval_cases n <;> decide

theorem digitChar_ne_minus {n : Nat} (h : n < 10) :
    Char.ofNat (48 + n) ≠ '-' := by
  interval_cases n <;> decide

theorem digitChar_ne_zero {n : Nat} (h : n < 10) (h1 : 1 ≤ n) :
    Char.ofNat (48 + n) ≠ '0' := by
  interval_cases n <;> first | omega | decide

theorem natDigits_all_digit : ∀ n, ∀ c ∈ natDigits n, c.isDigit = true := by
  intro n
  induction n using Nat.strong_induction_on with
  | _ n ih =>
    intro c hc
    rw [natDigits] at hc
    by_cases h : n < 10
    · rw [dif_pos h] at hc
      rcases List.mem_singleton.mp hc with rfl
      exact digitChar_isDigit h
    · rw [dif_neg h] at hc
      rcases List.mem_append.mp hc with hc' | hc'
      · exact ih (n / 10) (Nat.div_lt_self (by omega) (by omega)) c hc'
      · rcases List.mem_singleton.mp hc' with rfl
        exact digitChar_isDigit (Nat.mod_lt _ (by omega))

theorem natDigits_head_ne_zero : ∀ n, 1 ≤ n → ∀ d ds, natDigits n = d :: ds →
    d ≠ '0' := by
  intro n
  induction n using Nat.strong_induction_on with
  | _ n ih =>
    intro h1 d ds hnd
    rw [natDigits] at hnd
    by_cases h : n < 10
    · rw [dif_pos h] at hnd
      obtain ⟨rfl, rfl⟩ : d = Char.ofNat (48 + n) ∧ ds = [] := by
        constructor <;> injection hnd <;> simp_all
      exact digitChar_ne_zero h h1
    · rw [dif_neg h] at hnd
      rcases he : natDigits (n / 10) with _ | ⟨e, es⟩
      · exact absurd he (natDigits_ne_nil _)
      · rw [he, List.cons_append] at hnd
        injection hnd with h1' h2'
        rw [← h1']
        exact ih (n / 10) (Nat.div_lt_self (by omega) (by omega))
          (Nat.one_le_div_iff (by omega) |>.mpr (by omega)) e es he

theorem digitsToNat_nil : digitsToNat [] = 0 := rfl

theorem digitsToNat_append_one (a : List Char) (c : Char) :
    digitsToNat (a ++ [c]) = 10 * digitsToNat a + (c.toNat - 48) := by
  simp [digitsToNat, List.foldl_append]

theorem digitsToNat_natDigits : ∀ n, digitsToNat (natDigits n) = n := by
  intro n
  induction n using Nat.strong_induction_on with
  | _ n ih =>
    rw [natDigits]
    by_cases h : n < 10
    · rw [dif_pos h]
      simp [digitsToNat, toNat_ofNat_small (show 48 + n < 0xd800 by omega)]
    · rw [dif_neg h, digitsToNat_append_one,
        ih (n / 10) (Nat.div_lt_self (by omega) (by omega)),
        toNat_ofNat_small (show 48 + n % 10 < 0xd800 by omega)]
      omega

theorem pjSign_cons {c : Char} (cs : List Char) (h : c ≠ '-') :
    pjSign (c :: cs) = (false, c :: cs) := by
  simp [pjSign, h]

theorem pjFrac_cons {c : Char} (cs : List Char) (h : c ≠ '.') :
    pjFrac (c :: cs) = ([], c :: cs, false) := by
  simp [pjFrac, h]

theorem pjFrac_nil : pjFrac [] = ([], [], false) := rfl

theorem pjExp_cons {c : Char} (cs : List Char) (h1 : c ≠ 'e') (h2 : c ≠ 'E') :
    pjExp (c :: cs) = ([], c :: cs, false, false) := by
  simp [pjExp, h1, h2]

theorem pjExp_nil : pjExp [] = ([], [], false, false) := rfl

theorem isDigit_ne_minus {c : Char} (h : c.isDigit = true) : c ≠ '-' := by
  intro he
  subst he
  simp at h

theorem natDigits_no_lead (n : Nat) {d : Char} {ds : List Char}
    (hnd : natDigits n = d :: ds) : ¬(d = '0' ∧ ds ≠ []) := by
  rintro ⟨rfl, hne⟩
  by_cases h : n < 10
  · rw [natDigits, dif_pos h] at hnd
    injection hnd with h1 h2
    exact hne h2.symm
  · exact natDigits_head_ne_zero n (by omega) _ _ hnd rfl

theorem pjExp_e_default {c : Char} (u : List Char) (h1 : c ≠ '+') (h2 : c ≠ '-') :
    pjExp ('e' :: (c :: u)) = ((digitRun (c :: u)).1, (digitRun (c :: u)).2,
      true, false) := by
  simp [pjExp, h1, h2]

theorem pjNum_print (x : JNum) (rest : List Char) (hr : numSafe rest) :
    pjNum (printJNum x ++ rest) = some (x, rest) := by
  obtain ⟨m, e⟩ := x
  have hrdig : ∀ c, rest.head? = some c → c.isDigit = false := fun c hc => (hr c hc).1
  -- the exponent tail
  set ep : List Char := if e = 0 then [] else 'e' :: printInt e with hep
  have hprint : printJNum ⟨m, e⟩ ++ rest = printInt m ++ (ep ++ rest) := by
    simp [printJNum, hep, List.append_assoc]
  have hepDig : ∀ c, (ep ++ rest).head? = some c → c.isDigit = false := by
    intro c hc
    by_cases he0 : e = 0
    · rw [hep] at hc
      simp only [he0, if_pos] at hc
      exact hrdig c (by simpa using hc)
    · rw [hep] at hc
      simp only [he0, if_neg, not_false_iff, List.cons_append, List.head?] at hc
      rcases Option.some.inj hc with rfl
      decide
  have hepFrac : ∀ c, (ep ++ rest).head? = some c → c ≠ '.' := by
    intro c hc
    by_cases he0 : e = 0
    · rw [hep] at hc
      simp only [he0, if_pos] at hc
      exact (hr c (by simpa using hc)).2.1
    · rw [hep] at hc
      simp only [he0, if_neg, not_false_iff, List.cons_append, List.head?] at hc
      rcases Option.some.inj hc with rfl
      decide
  -- the exponent part parses to (e, rest)
  have hexp : pjExp (ep ++ rest) = (if e = 0 then [] else natDigits e.natAbs,
      rest, decide (e ≠ 0), decide (e < 0)) := by
    by_cases he0 : e = 0
    · subst he0
      rw [hep]
      simp only [if_pos rfl, List.nil_append]
      cases hrest : rest with
      | nil => simp [pjExp_nil]
      | cons c t =>
        have h1 : c ≠ 'e' := (hr c (by rw [hrest]; rfl)).2.2.1
        have h2 : c ≠ 'E' := (hr c (by rw [hrest]; rfl)).2.2.2
        simp [pjExp_cons t h1 h2]
    · rw [hep, if_neg he0]
      by_cases hel : e < 0
      · have : printInt e = '-' :: natDigits e.natAbs := by
          simp [printInt, hel]
        rw [this]
        show pjExp ('e' :: ('-' :: (natDigits e.natAbs ++ rest))) = _
        have : pjExp ('e' :: ('-' :: (natDigits e.natAbs ++ rest))) =
            ((digitRun (natDigits e.natAbs ++ rest)).1,
             (digitRun (natDigits e.natAbs ++ rest)).2, true, true) := rfl
        rw [this, digitRun_append rest (natDigits_all_digit _) hrdig]
        simp [he0, hel]
      · have hpos : 0 ≤ e := by omega
        have : printInt e = natDigits e.toNat := by
          simp [printInt, not_lt.mpr hpos]
        rw [this]
        obtain ⟨d, ds, hD⟩ := List.exists_cons_of_ne_nil (natDigits_ne_nil e.toNat)
        have hddig : d.isDigit = true := natDigits_all_digit e.toNat d (by rw [hD]; simp)
        rw [hD]
        show pjExp ('e' :: (d :: (ds ++ rest))) = _
        rw [pjExp_e_default (ds ++ rest) (by intro hh; subst hh; simp at hddig)
          (by intro hh; subst hh; simp at hddig)]
        have hdr : digitRun (d :: (ds ++ rest)) = (d :: ds, rest) := by
          rw [← List.cons_append]
          exact digitRun_append rest (by rw [← hD]; exact natDigits_all_digit _) hrdig
        rw [hdr]
        have hna : e.toNat = e.natAbs := by omega
        simp [← hD, he0, hel, hna]
  -- main split on the mantissa sign
  by_cases hm : m < 0
  · have hpi : printInt m = '-' :: natDigits m.natAbs := by
      simp [printInt, hm]
    have hsign : pjSign (printJNum ⟨m, e⟩ ++ rest) =
        (true, natDigits m.natAbs ++ (ep ++ rest)) := by
      rw [hprint, hpi]
      rfl
    obtain ⟨d, ds, hD⟩ := List.exists_cons_of_ne_nil (natDigits_ne_nil m.natAbs)
    have hrun : digitRun (pjSign (printJNum ⟨m, e⟩ ++ rest)).2 =
        (d :: ds, ep ++ rest) := by
      rw [hsign]
      show digitRun (natDigits m.natAbs ++ (ep ++ rest)) = _
      rw [digitRun_append (ep ++ rest) (natDigits_all_digit _) hepDig, hD]
    have hfrac : pjFrac (ep ++ rest) = ([], ep ++ rest, false) := by
      cases hepr : ep ++ rest with
      | nil => exact pjFrac_nil
      | cons c t => exact pjFrac_cons t (hepFrac c (by rw [hepr]; rfl))
    unfold pjNum
    rw [hrun]
    simp only [if_neg (natDigits_no_lead m.natAbs hD)]
    rw [hfrac]
    simp only [if_neg (by simp : ¬(False ∧ ([] : List Char) = []))]
    rw [hexp]
    have hmant : digitsToNat (d :: ds) = m.natAbs := by
      rw [← hD, digitsToNat_natDigits]
    by_cases he0 : e = 0
    · subst he0
      simp [hsign, hmant, digitsToNat_nil, abs_of_neg hm]
    · by_cases hel : e < 0
      · simp [hsign, hmant, he0, hel, natDigits_ne_nil, digitsToNat_natDigits,
          abs_of_neg hm, abs_of_neg hel]
      · simp [hsign, hmant, he0, hel, natDigits_ne_nil, digitsToNat_natDigits,
          abs_of_neg hm, abs_of_nonneg (show (0:ℤ) ≤ e by omega)]
  · have hm' : 0 ≤ m := by omega
    have hpi : printInt m = natDigits m.toNat := by
      simp [printInt, not_lt.mpr hm']
    obtain ⟨d, ds, hD⟩ := List.exists_cons_of_ne_nil (natDigits_ne_nil m.toNat)
    have hddig : d.isDigit = true := natDigits_all_digit m.toNat d (by rw [hD]; simp)
    have hlist : printJNum ⟨m, e⟩ ++ rest = d :: (ds ++ (ep ++ rest)) := by
      rw [hprint, hpi, hD]
      simp
    have hsign : pjSign (printJNum ⟨m, e⟩ ++ rest) =
        (false, d :: (ds ++ (ep ++ rest))) := by
      rw [hlist]
      exact pjSign_cons _ (isDigit_ne_minus hddig)
    have hrun : digitRun (pjSign (printJNum ⟨m, e⟩ ++ rest)).2 =
        (d :: ds, ep ++ rest) := by
      rw [hsign]
      show digitRun (d :: (ds ++ (ep ++ rest))) = _
      rw [← List.cons_append, ← hD]
      exact digitRun_append (ep ++ rest) (natDigits_all_digit _) hepDig
    have hfrac : pjFrac (ep ++ rest) = ([], ep ++ rest, false) := by
      cases hepr : ep ++ rest with
      | nil => exact pjFrac_nil
      | cons c t => exact pjFrac_cons t (hepFrac c (by rw [hepr]; rfl))
    unfold pjNum
    rw [hrun]
    simp only [if_neg (natDigits_no_lead m.toNat hD)]
    rw [hfrac]
    simp only [if_neg (by simp : ¬(False ∧ ([] : List Char) = []))]
    rw [hexp]
    have hmant : digitsToNat (d :: ds) = m.toNat := by
      rw [← hD, digitsToNat_natDigits]
    by_cases he0 : e = 0
    · subst he0
      simp [hsign, hmant, digitsToNat_nil, Int.toNat_of_nonneg hm']
    · by_cases hel : e < 0
      · simp [hsign, hmant, he0, hel, natDigits_ne_nil, digitsToNat_natDigits,
          Int.toNat_of_nonneg hm', abs_of_neg hel]
      · simp [hsign, hmant, he0, hel, natDigits_ne_nil, digitsToNat_natDigits,
          Int.toNat_of_nonneg hm', abs_of_nonneg (show (0:ℤ) ≤ e by omega)]

/-! ## C4: the escaped string body parses back -/

theorem char_not_surrogate (c : Char) :
    ¬(0xd800 ≤ c.toNat ∧ c.toNat ≤ 0xdfff) := by
  rintro ⟨h1, h2⟩
  have hv : c.val.toNat.isValidChar := c.valid
  have he : c.toNat = c.val.toNat := rfl
  rcases hv with h | ⟨h3, h4⟩ <;> omega

theorem char_lt_110000 (c : Char) : c.toNat < 0x110000 := by
  have hv : c.val.toNat.isValidChar := c.valid
  have he : c.toNat = c.val.toNat := rfl
  rcases hv with h | ⟨h3, h4⟩ <;> omega

theorem hexVal_hexDigitChar {k : Nat} (h : k < 16) :
    hexVal (hexDigitChar k) = some k := by
  interval_cases k <;> decide

theorem hex4_uEscape {n : Nat} (rest : List Char) (h : n < 0x10000) :
    hex4 ([hexDigitChar (n / 4096 % 16), hexDigitChar (n / 256 % 16),
      hexDigitChar (n / 16 % 16), hexDigitChar (n % 16)] ++ rest) = some (n, rest) := by
  show hex4 (hexDigitChar (n / 4096 % 16) :: hexDigitChar (n / 256 % 16) ::
    hexDigitChar (n / 16 % 16) :: hexDigitChar (n % 16) :: rest) = some (n, rest)
  rw [hex4, hexVal_hexDigitChar (Nat.mod_lt _ (by omega)),
    hexVal_hexDigitChar (Nat.mod_lt _ (by omega)),
    hexVal_hexDigitChar (Nat.mod_lt _ (by omega)),
    hexVal_hexDigitChar (Nat.mod_lt _ (by omega))]
  show some (4096 * (n / 4096 % 16) + 256 * (n / 256 % 16) + 16 * (n / 16 % 16) + n % 16,
    rest) = some (n, rest)
  have : 4096 * (n / 4096 % 16) + 256 * (n / 256 % 16) + 16 * (n / 16 % 16) + n % 16 = n := by
    omega
  rw [this]

theorem escapeChar_ne_nil (c : Char) : escapeChar c ≠ [] := by
  unfold escapeChar
  split_ifs <;> simp [uEscape]

theorem le_flatten_escape : ∀ l : List Char,
    l.length ≤ ((l.map escapeChar).flatten).length := by
  intro l
  induction l with
  | nil => simp
  | cons c cs ih =>
    have h1 : 1 ≤ (escapeChar c).length :=
      List.length_pos.mpr (escapeChar_ne_nil c)
    simp only [List.map_cons, List.flatten_cons, List.length_cons, List.length_append]
    omega

theorem pjStr_surrogate_pair (f : Nat) (acc rest : List Char) (hi lo : Nat)
    (hhi : 0xd800 ≤ hi ∧ hi ≤ 0xdbff) (hhi16 : hi < 0x10000)
    (hlo : 0xdc00 ≤ lo ∧ lo ≤ 0xdfff) (hlo16 : lo < 0x10000) :
    pjStr (f + 1) acc (uEscape hi ++ (uEscape lo ++ rest)) =
      pjStr f (Char.ofNat (0x10000 + (hi - 0xd800) * 0x400 + (lo - 0xdc00)) :: acc) rest := by
  have h4hi : hex4 (hexDigitChar (hi / 4096 % 16) :: hexDigitChar (hi / 256 % 16) ::
      hexDigitChar (hi / 16 % 16) :: hexDigitChar (hi % 16) ::
      '\\' :: 'u' :: hexDigitChar (lo / 4096 % 16) :: hexDigitChar (lo / 256 % 16) ::
      hexDigitChar (lo / 16 % 16) :: hexDigitChar (lo % 16) :: rest) =
      some (hi, '\\' :: 'u' :: hexDigitChar (lo / 4096 % 16) :: hexDigitChar (lo / 256 % 16) ::
        hexDigitChar (lo / 16 % 16) :: hexDigitChar (lo % 16) :: rest) :=
    hex4_uEscape _ hhi16
  have h4lo : hex4 (hexDigitChar (lo / 4096 % 16) :: hexDigitChar (lo / 256 % 16) ::
      hexDigitChar (lo / 16 % 16) :: hexDigitChar (lo % 16) :: rest) = some (lo, rest) :=
    hex4_uEscape _ hlo16
  rw [uEscape, uEscape]
  simp only [List.cons_append, List.nil_append]
  simp [pjStr, h4hi, h4lo, hhi, hlo]

theorem pjStr_escape_step (c : Char) (f : Nat) (acc rest : List Char) :
    pjStr (f + 1) acc (escapeChar c ++ rest) = pjStr f (c :: acc) rest := by
  by_cases h1 : c = '"'
  · subst h1; simp [escapeChar, pjStr]
  by_cases h2 : c = '\\'
  · subst h2; simp [escapeChar, pjStr]
  by_cases h3 : c = '\n'
  · subst h3; simp [escapeChar, pjStr]
  by_cases h4 : c = '\r'
  · subst h4; simp [escapeChar, pjStr]
  by_cases h5 : c = '\t'
  · subst h5; simp [escapeChar, pjStr]
  by_cases h6 : c = '\x08'
  · subst h6; simp [escapeChar, pjStr]
  by_cases h7 : c = '\x0c'
  · subst h7; simp [escapeChar, pjStr]
  by_cases h8 : c.toNat < 0x20 ∨ 0x7f ≤ c.toNat
  · by_cases h9 : c.toNat < 0x10000
    · have hesc : escapeChar c = uEscape c.toNat := by
        simp [escapeChar, h1, h2, h3, h4, h5, h6, h7, h8, h9]
      have h4' : hex4 (hexDigitChar (c.toNat / 4096 % 16) :: hexDigitChar (c.toNat / 256 % 16) ::
          hexDigitChar (c.toNat / 16 % 16) :: hexDigitChar (c.toNat % 16) :: rest) =
          some (c.toNat, rest) := hex4_uEscape rest h9
      have hA : ¬(0xd800 ≤ c.toNat ∧ c.toNat ≤ 0xdbff) :=
        fun h => char_not_surrogate c ⟨h.1, by omega⟩
      have hB : ¬(0xdc00 ≤ c.toNat ∧ c.toNat ≤ 0xdfff) :=
        fun h => char_not_surrogate c ⟨by omega, h.2⟩
      rw [hesc, uEscape]
      simp [pjStr, h4', hA, hB, Char.ofNat_toNat]
    · have hn : c.toNat < 0x110000 := char_lt_110000 c
      have hesc : escapeChar c = uEscape (0xd800 + (c.toNat - 0x10000) / 0x400) ++
          uEscape (0xdc00 + (c.toNat - 0x10000) % 0x400) := by
        simp [escapeChar, h1, h2, h3, h4, h5, h6, h7, h8, h9]
      rw [hesc, List.append_assoc,
        pjStr_surrogate_pair f acc rest _ _ ⟨by omega, by omega⟩ (by omega)
          ⟨by omega, by omega⟩ (by omega)]
      have harith : 0x10000 + (0xd800 + (c.toNat - 0x10000) / 0x400 - 0xd800) * 0x400 +
          (0xdc00 + (c.toNat - 0x10000) % 0x400 - 0xdc00) = c.toNat := by omega
      rw [harith, Char.ofNat_toNat]
  · have h9 : ¬(c.toNat < 0x20) := by omega
    have hesc : escapeChar c = [c] := by
      simp [escapeChar, h1, h2, h3, h4, h5, h6, h7, h8]
    rw [hesc]
    simp [pjStr, h1, h2, h9]

theorem pjStr_print : ∀ (s : List Char) (fuel : Nat) (acc tail : List Char),
    s.length + 1 ≤ fuel →
    pjStr fuel acc ((s.map escapeChar).flatten ++ '"' :: tail) =
      some (acc.reverse ++ s, tail) := by
  intro s
  induction s with
  | nil =>
    intro fuel acc tail hf
    cases fuel with
    | zero => omega
    | succ f => simp [pjStr]
  | cons c cs ih =>
    intro fuel acc tail hf
    cases fuel with
    | zero => omega
    | succ f =>
      have hf' : cs.length + 1 ≤ f := by
        simp only [List.length_cons] at hf
        omega
      simp only [List.map_cons, List.flatten_cons, List.append_assoc]
      rw [pjStr_escape_step, ih f (c :: acc) tail hf']
      simp

theorem szV_pos (v : JVal) : 1 ≤ szV v := by
  cases v <;> simp [szV] <;> omega

mutual

theorem szV_le_dump : ∀ (lvl : Nat) (v : JVal), szV v ≤ (dumpVal lvl v).length + 1
  | _, JVal.null => by simp [szV, dumpVal]
  | _, JVal.bool b => by cases b <;> simp [szV, dumpVal]
  | _, JVal.num x => by simp [szV, dumpVal]
  | _, JVal.str s => by
    have h := le_flatten_escape s.data
    have hs : s.length = s.data.length := rfl
    simp [szV, dumpVal, escapeStr] at h ⊢
    omega
  | _, JVal.arr [] => by simp [szV, szL, dumpVal]
  | lvl, JVal.arr (x :: xs) => by
    have h1 := szV_le_dump (lvl + 1) x
    have h2 := szL_le_dump (lvl + 1) xs
    simp [szV, szL, dumpVal, indentChars]
    omega
  | _, JVal.obj [] => by simp [szV, szF, dumpVal]
  | lvl, JVal.obj ((k, v) :: fs) => by
    have h1 := szV_le_dump (lvl + 1) v
    have h2 := szF_le_dump (lvl + 1) fs
    have h3 := le_flatten_escape k.data
    have hk : k.length = k.data.length := rfl
    simp [szV, szF, dumpVal, dumpField, escapeStr, indentChars] at h3 ⊢
    omega

theorem szL_le_dump : ∀ (lvl : Nat) (xs : List JVal), szL xs ≤ (dumpMore lvl xs).length
  | _, [] => by simp [szL, dumpMore]
  | lvl, x :: xs => by
    have h1 := szV_le_dump lvl x
    have h2 := szL_le_dump lvl xs
    simp [szL, dumpMore, indentChars]
    omega

theorem szF_le_dump : ∀ (lvl : Nat) (fs : List (String × JVal)),
    szF fs ≤ (dumpMoreF lvl fs).length
  | _, [] => by simp [szF, dumpMoreF]
  | lvl, (k, v) :: fs => by
    have h1 := szV_le_dump lvl v
    have h2 := szF_le_dump lvl fs
    have h3 := le_flatten_escape k.data
    have hk : k.length = k.data.length := rfl
    simp [szF, dumpMoreF, dumpField, escapeStr, indentChars] at h3 ⊢
    omega

end

theorem isJsonWs_props {c : Char} (h : isJsonWs c = true) :
    c.isDigit = false ∧ c ≠ '.' ∧ c ≠ 'e' ∧ c ≠ 'E' := by
  rcases (by simpa [isJsonWs] using h :
      ((c = ' ' ∨ c = '\t') ∨ c = '\n') ∨ c = '\r') with
    ((rfl | rfl) | rfl) | rfl <;> decide

theorem numSafe_cons {c : Char} (rest : List Char)
    (h : c.isDigit = false ∧ c ≠ '.' ∧ c ≠ 'e' ∧ c ≠ 'E') : numSafe (c :: rest) := by
  intro d hd
  have he : c = d := by simpa using hd
  subst he
  exact h

theorem numSafe_ws_close (ws : List Char) {c : Char} (rest : List Char)
    (hws : ∀ d ∈ ws, isJsonWs d = true)
    (hc : c.isDigit = false ∧ c ≠ '.' ∧ c ≠ 'e' ∧ c ≠ 'E') :
    numSafe (ws ++ c :: rest) := by
  cases ws with
  | nil => exact numSafe_cons rest hc
  | cons d ds => exact numSafe_cons _ (isJsonWs_props (hws d (by simp)))

theorem digit_not_ws {c : Char} (h : c.isDigit = true) : isJsonWs c = false := by
  by_contra hw
  have hw' : isJsonWs c = true := by simpa using hw
  rcases (by simpa [isJsonWs] using hw' :
      ((c = ' ' ∨ c = '\t') ∨ c = '\n') ∨ c = '\r') with
    ((rfl | rfl) | rfl) | rfl <;> simp at h

theorem digit_ne {c d : Char} (h : c.isDigit = true) (hd : d.isDigit = false) : c ≠ d := by
  intro he
  rw [he, hd] at h
  exact Bool.false_ne_true h

theorem dumpVal_head (lvl : Nat) (v : JVal) :
    ∃ c t, dumpVal lvl v = c :: t ∧ isJsonWs c = false ∧ c ≠ ']' ∧ c ≠ '\x7d' := by
  cases v with
  | num x =>
    show ∃ c t, printJNum x = c :: t ∧ _
    rw [printJNum, printInt]
    by_cases hm : x.mant < 0
    · rw [if_pos hm]
      refine ⟨'-', _, rfl, ?_, ?_, ?_⟩ <;> decide
    · rw [if_neg hm]
      obtain ⟨d, ds, hD⟩ := List.exists_cons_of_ne_nil (natDigits_ne_nil x.mant.toNat)
      have hdig : d.isDigit = true := natDigits_all_digit _ d (by rw [hD]; simp)
      rw [hD]
      exact ⟨d, _, rfl, digit_not_ws hdig, digit_ne hdig (by decide),
        digit_ne hdig (by decide)⟩
  | bool b => cases b <;> (refine ⟨_, _, rfl, ?_, ?_, ?_⟩ <;> decide)
  | arr xs => cases xs <;> (refine ⟨_, _, rfl, ?_, ?_, ?_⟩ <;> decide)
  | obj fs => cases fs <;> (refine ⟨_, _, rfl, ?_, ?_, ?_⟩ <;> decide)
  | null => refine ⟨_, _, rfl, ?_, ?_, ?_⟩ <;> decide
  | str s => refine ⟨_, _, rfl, ?_, ?_, ?_⟩ <;> decide

theorem skipWs_dump (lvl : Nat) (v : JVal) (rest : List Char) :
    skipWs (dumpVal lvl v ++ rest) = dumpVal lvl v ++ rest := by
  obtain ⟨c, t, he, hw, _, _⟩ := dumpVal_head lvl v
  rw [he, List.cons_append, skipWs_not _ hw]

theorem nl_indent_ws (lvl : Nat) : ∀ c ∈ '\n' :: indentChars lvl, isJsonWs c = true := by
  intro c hc
  rcases List.mem_cons.mp hc with rfl | h
  · decide
  · exact indentChars_ws lvl c h

theorem dump_parse_all : ∀ fuel : Nat,
    (∀ (v : JVal) (lvl : Nat) (rest : List Char), szV v ≤ fuel → numSafe rest →
       pjValue fuel (dumpVal lvl v ++ rest) = some (normV v, rest)) ∧
    (∀ (x : JVal) (xs : List JVal) (lvl : Nat) (acc : List JVal)
       (pre ws rest : List Char),
       (∀ c ∈ pre, isJsonWs c = true) → (∀ c ∈ ws, isJsonWs c = true) →
       szL (x :: xs) ≤ fuel →
       pjElems fuel acc
           (pre ++ (dumpVal lvl x ++ (dumpMore lvl xs ++ (ws ++ ']' :: rest)))) =
         some (acc.reverse ++ normL (x :: xs), rest)) ∧
    (∀ (k : String) (v : JVal) (fs : List (String × JVal)) (lvl : Nat)
       (acc : List (String × JVal)) (pre ws rest : List Char),
       (∀ c ∈ pre, isJsonWs c = true) → (∀ c ∈ ws, isJsonWs c = true) →
       szF ((k, v) :: fs) ≤ fuel →
       pjMembers fuel acc
           (pre ++ (dumpField lvl (k, v) ++ (dumpMoreF lvl fs ++ (ws ++ '\x7d' :: rest)))) =
         some (normF acc ((k, v) :: fs), rest)) := by
  intro fuel
  induction fuel with
  | zero =>
    refine ⟨?_, ?_, ?_⟩
    · intro v lvl rest hsz _
      exact absurd hsz (by have := szV_pos v; omega)
    · intro x xs lvl acc pre ws rest _ _ hsz
      exact absurd hsz (by have := szV_pos x; simp only [szL]; omega)
    · intro k v fs lvl acc pre ws rest _ _ hsz
      exact absurd hsz (by have := szV_pos v; simp only [szF]; omega)
  | succ f ih =>
    obtain ⟨ihA, ihB, ihC⟩ := ih
    refine ⟨?_, ?_, ?_⟩
    · -- (A) values
      intro v lvl rest hsz hns
      cases v with
      | null => simp [dumpVal, pjValue, skipWs, isJsonWs, normV]
      | bool b => cases b <;> simp [dumpVal, pjValue, skipWs, isJsonWs, normV]
      | num x =>
        show pjValue (f + 1) (printJNum x ++ rest) = some (JVal.num x, rest)
        have hnum := pjNum_print x rest hns
        by_cases hm : x.mant < 0
        · have hh : printJNum x ++ rest = '-' :: (natDigits x.mant.natAbs ++
              ((if x.exp10 = 0 then [] else 'e' :: printInt x.exp10) ++ rest)) := by
            simp [printJNum, printInt, hm]
          rw [pjValue, hh, skipWs_not _ (by decide)]
          simp only [if_neg (by decide : ¬('-' : Char) = '\x7b'),
            if_neg (by decide : ¬('-' : Char) = '['),
            if_neg (by decide : ¬('-' : Char) = '"'),
            if_neg (by decide : ¬('-' : Char) = 't'),
            if_neg (by decide : ¬('-' : Char) = 'f'),
            if_neg (by decide : ¬('-' : Char) = 'n'),
            if_pos (by decide : ('-' : Char) = '-' ∨ ('-' : Char).isDigit = true)]
          rw [← hh, hnum]
          simp
        · obtain ⟨d, ds, hD⟩ := List.exists_cons_of_ne_nil (natDigits_ne_nil x.mant.toNat)
          have hdig : d.isDigit = true := natDigits_all_digit _ d (by rw [hD]; simp)
          have hh : printJNum x ++ rest = d :: (ds ++
              ((if x.exp10 = 0 then [] else 'e' :: printInt x.exp10) ++ rest)) := by
            simp [printJNum, printInt, hm, hD]
          rw [pjValue, hh, skipWs_not _ (digit_not_ws hdig)]
          simp only [digit_ne hdig (by decide : ('\x7b' : Char).isDigit = false),
            digit_ne hdig (by decide : ('[' : Char).isDigit = false),
            digit_ne hdig (by decide : ('"' : Char).isDigit = false),
            digit_ne hdig (by decide : ('t' : Char).isDigit = false),
            digit_ne hdig (by decide : ('f' : Char).isDigit = false),
            digit_ne hdig (by decide : ('n' : Char).isDigit = false),
            if_neg, if_false, hdig, or_true, if_true]
          rw [← hh, hnum]
      | str s =>
        have hh : dumpVal lvl (JVal.str s) ++ rest =
            '"' :: ((s.data.map escapeChar).flatten ++ '"' :: rest) := by
          simp [dumpVal, escapeStr]
        have hlen : s.data.length + 1 ≤ f + 1 := by
          have hs : s.length = s.data.length := rfl
          simp [szV] at hsz
          omega
        rw [pjValue, hh, skipWs_not _ (by decide)]
        simp [pjStr_print s.data (f + 1) [] rest hlen, normV]
      | arr xs =>
        cases xs with
        | nil => simp [dumpVal, pjValue, skipWs, isJsonWs, normV, normL]
        | cons x xs =>
          have hh : dumpVal lvl (JVal.arr (x :: xs)) ++ rest =
              '[' :: (('\n' :: indentChars (lvl + 1)) ++ (dumpVal (lvl + 1) x ++
                (dumpMore (lvl + 1) xs ++ (('\n' :: indentChars lvl) ++ ']' :: rest)))) := by
            simp [dumpVal]
          obtain ⟨c0, t0, he0, hw0, hne0, _⟩ := dumpVal_head (lvl + 1) x
          have hskip : skipWs (('\n' :: indentChars (lvl + 1)) ++ (dumpVal (lvl + 1) x ++
              (dumpMore (lvl + 1) xs ++ (('\n' :: indentChars lvl) ++ ']' :: rest)))) =
              c0 :: (t0 ++ (dumpMore (lvl + 1) xs ++
                (('\n' :: indentChars lvl) ++ ']' :: rest))) := by
            rw [skipWs_append _ (nl_indent_ws (lvl + 1)), he0, List.cons_append,
              skipWs_not _ hw0]
          have hB := ihB x xs (lvl + 1) [] ('\n' :: indentChars (lvl + 1))
            ('\n' :: indentChars lvl) rest (nl_indent_ws (lvl + 1)) (nl_indent_ws lvl)
            (by simp [szV] at hsz; omega)
          have hcnd : ((c0 :: (t0 ++ (dumpMore (lvl + 1) xs ++
              ('\n' :: indentChars lvl ++ ']' :: rest)))).head? = some ']') = False := by
            simp [hne0]
          rw [pjValue, hh, skipWs_not _ (by decide)]
          simp only [if_neg (by decide : ¬('[' : Char) = '\x7b'), if_pos rfl, hskip, hcnd,
            if_false, hB]
          simp [normV]
      | obj fs =>
        cases fs with
        | nil => simp [dumpVal, pjValue, skipWs, isJsonWs, normV, normF]
        | cons g gs =>
          obtain ⟨k, v⟩ := g
          have hh : dumpVal lvl (JVal.obj ((k, v) :: gs)) ++ rest =
              '\x7b' :: (('\n' :: indentChars (lvl + 1)) ++ (dumpField (lvl + 1) (k, v) ++
                (dumpMoreF (lvl + 1) gs ++ (('\n' :: indentChars lvl) ++ '\x7d' :: rest)))) := by
            simp [dumpVal]
          have hfield : dumpField (lvl + 1) (k, v) ++
              (dumpMoreF (lvl + 1) gs ++ (('\n' :: indentChars lvl) ++ '\x7d' :: rest)) =
              '"' :: (((k.data.map escapeChar).flatten ++ ['"']) ++
                (':' :: ' ' :: dumpVal (lvl + 1) v ++
                  (dumpMoreF (lvl + 1) gs ++ (('\n' :: indentChars lvl) ++ '\x7d' :: rest)))) := by
            simp [dumpField, escapeStr]
          have hskip : skipWs (('\n' :: indentChars (lvl + 1)) ++ (dumpField (lvl + 1) (k, v) ++
              (dumpMoreF (lvl + 1) gs ++ (('\n' :: indentChars lvl) ++ '\x7d' :: rest)))) =
              '"' :: (((k.data.map escapeChar).flatten ++ ['"']) ++
                (':' :: ' ' :: dumpVal (lvl + 1) v ++
                  (dumpMoreF (lvl + 1) gs ++ (('\n' :: indentChars lvl) ++ '\x7d' :: rest)))) := by
            rw [skipWs_append _ (nl_indent_ws (lvl + 1)), hfield, skipWs_not _ (by decide)]
          have hC := ihC k v gs (lvl + 1) [] ('\n' :: indentChars (lvl + 1))
            ('\n' :: indentChars lvl) rest (nl_indent_ws (lvl + 1)) (nl_indent_ws lvl)
            (by simp [szV] at hsz; omega)
          have hcnd : ((('"' : Char) :: (((k.data.map escapeChar).flatten ++ ['"']) ++
              (':' :: ' ' :: dumpVal (lvl + 1) v ++ (dumpMoreF (lvl + 1) gs ++
                ('\n' :: indentChars lvl ++ '\x7d' :: rest))))).head? = some '\x7d') =
              False := by
            simp
          rw [pjValue, hh, skipWs_not _ (by decide)]
          simp only [if_pos rfl, hskip, hcnd, if_false, hC]
          simp [normV]
    · -- (B) array elements
      intro x xs lvl acc pre ws rest hpre hws hsz
      have hszx : szV x ≤ f := by
        have := szV_pos x
        simp [szL] at hsz
        omega
      have hns' : numSafe (dumpMore lvl xs ++ (ws ++ ']' :: rest)) := by
        cases xs with
        | nil =>
          simp only [dumpMore, List.nil_append]
          exact numSafe_ws_close ws rest hws (by decide)
        | cons y ys => exact numSafe_cons _ (by decide)
      have hv : pjValue f (pre ++ (dumpVal lvl x ++ (dumpMore lvl xs ++ (ws ++ ']' :: rest)))) =
          some (normV x, dumpMore lvl xs ++ (ws ++ ']' :: rest)) := by
        rw [pjValue_ws f _ hpre]
        exact ihA x lvl _ hszx hns'
      rw [pjElems]
      cases xs with
      | nil =>
        have hsk : skipWs (dumpMore lvl ([] : List JVal) ++ (ws ++ ']' :: rest)) =
            ']' :: rest := by
          simp only [dumpMore, List.nil_append]
          rw [skipWs_append _ hws, skipWs_not _ (by decide)]
        simp only [hv, hsk]
        simp [normL]
      | cons y ys =>
        have hsk : skipWs (dumpMore lvl (y :: ys) ++ (ws ++ ']' :: rest)) =
            ',' :: (('\n' :: indentChars lvl) ++ (dumpVal lvl y ++
              (dumpMore lvl ys ++ (ws ++ ']' :: rest)))) := by
          rw [dumpMore]
          show skipWs (',' :: ('\n' :: (indentChars lvl ++ dumpVal lvl y ++ dumpMore lvl ys) ++
            (ws ++ ']' :: rest))) = _
          rw [skipWs_not _ (by decide)]
          simp [List.append_assoc]
        have hB := ihB y ys lvl (normV x :: acc) ('\n' :: indentChars lvl) ws rest
          (nl_indent_ws lvl) hws
          (by have := szV_pos x; simp [szL] at hsz ⊢; omega)
        simp only [hv, hsk, hB]
        simp [normL]
    · -- (C) object members
      intro k v fs lvl acc pre ws rest hpre hws hsz
      have hlen : k.data.length + 1 ≤ f + 1 := by
        have := szV_pos v
        have hk : k.length = k.data.length := rfl
        simp [szF] at hsz
        omega
      have hszv : szV v ≤ f := by
        simp [szF] at hsz
        omega
      have hsk1 : skipWs (pre ++ (dumpField lvl (k, v) ++
          (dumpMoreF lvl fs ++ (ws ++ '\x7d' :: rest)))) =
          '"' :: ((k.data.map escapeChar).flatten ++ '"' ::
            (':' :: (' ' :: (dumpVal lvl v ++
              (dumpMoreF lvl fs ++ (ws ++ '\x7d' :: rest)))))) := by
        rw [skipWs_append _ hpre]
        have : dumpField lvl (k, v) ++ (dumpMoreF lvl fs ++ (ws ++ '\x7d' :: rest)) =
            '"' :: ((k.data.map escapeChar).flatten ++ '"' ::
              (':' :: (' ' :: (dumpVal lvl v ++
                (dumpMoreF lvl fs ++ (ws ++ '\x7d' :: rest)))))) := by
          simp [dumpField, escapeStr]
        rw [this, skipWs_not _ (by decide)]
      have hstr := pjStr_print k.data (f + 1) []
        (':' :: (' ' :: (dumpVal lvl v ++ (dumpMoreF lvl fs ++ (ws ++ '\x7d' :: rest))))) hlen
      have hns' : numSafe (dumpMoreF lvl fs ++ (ws ++ '\x7d' :: rest)) := by
        cases fs with
        | nil =>
          simp only [dumpMoreF, List.nil_append]
          exact numSafe_ws_close ws rest hws (by decide)
        | cons g gs => exact numSafe_cons _ (by decide)
      have hv : pjValue f (' ' :: (dumpVal lvl v ++
          (dumpMoreF lvl fs ++ (ws ++ '\x7d' :: rest)))) =
          some (normV v, dumpMoreF lvl fs ++ (ws ++ '\x7d' :: rest)) := by
        rw [show (' ' :: (dumpVal lvl v ++ (dumpMoreF lvl fs ++ (ws ++ '\x7d' :: rest)))) =
          [' '] ++ (dumpVal lvl v ++ (dumpMoreF lvl fs ++ (ws ++ '\x7d' :: rest))) from rfl]
        rw [pjValue_ws f _ (by decide)]
        exact ihA v lvl _ hszv hns'
      have hsk2 : skipWs (':' :: (' ' :: (dumpVal lvl v ++
          (dumpMoreF lvl fs ++ (ws ++ '\x7d' :: rest))))) =
          ':' :: (' ' :: (dumpVal lvl v ++ (dumpMoreF lvl fs ++ (ws ++ '\x7d' :: rest)))) :=
        skipWs_not _ (by decide)
      have hkk : String.mk k.data = k := rfl
      rw [pjMembers]
      cases fs with
      | nil =>
        have hsk : skipWs (dumpMoreF lvl ([] : List (String × JVal)) ++
            (ws ++ '\x7d' :: rest)) = '\x7d' :: rest := by
          simp only [dumpMoreF, List.nil_append]
          rw [skipWs_append _ hws, skipWs_not _ (by decide)]
        simp only [hsk1, hstr, List.nil_append, hsk2, hv, hkk, hsk]
        simp [normF]
      | cons g gs =>
        obtain ⟨k2, v2⟩ := g
        have hsk : skipWs (dumpMoreF lvl ((k2, v2) :: gs) ++ (ws ++ '\x7d' :: rest)) =
            ',' :: (('\n' :: indentChars lvl) ++ (dumpField lvl (k2, v2) ++
              (dumpMoreF lvl gs ++ (ws ++ '\x7d' :: rest)))) := by
          rw [dumpMoreF]
          show skipWs (',' :: ('\n' :: (indentChars lvl ++ dumpField lvl (k2, v2) ++
            dumpMoreF lvl gs) ++ (ws ++ '\x7d' :: rest))) = _
          rw [skipWs_not _ (by decide)]
          simp [List.append_assoc]
        have hC := ihC k2 v2 gs lvl (upsertField acc k (normV v))
          ('\n' :: indentChars lvl) ws rest (nl_indent_ws lvl) hws
          (by have := szV_pos v; simp [szF] at hsz ⊢; omega)
        simp only [hsk1, hstr, List.nil_append, hsk2, hv, hkk, hsk]
        simp only [List.cons_append, normF] at hC ⊢
        exact hC

theorem jdump2_loads (v : JVal) : json_loads (jdump2 v ++ "\n") = some (normV v) := by
  have hdata : (jdump2 v ++ "\n").data = dumpVal 0 v ++ ['\n'] := by
    simp [jdump2]
  have hA := (dump_parse_all (2 * (dumpVal 0 v ++ ['\n']).length + 2)).1 v 0 ['\n']
    (by have := szV_le_dump 0 v; simp; omega)
    (numSafe_cons [] (by decide))
  rw [json_loads, hdata, json_loadsList, hA]
  simp [skipWs, isJsonWs]

/-- **C4**: for every input text, each engine's stdout is exactly one
syntactically valid JSON array: the strict engine's output and the lenient
engine's output both reparse under `json_loads` as a JSON array.  (Both
engines are total functions of the input in this embedding — every code path
ends in `print(json.dumps(arr, indent=2))` or the literal `[]` — so no
exception and no half-formed document is possible.) -/
theorem c4_always_json_array (text : String) :
    (∃ xs, json_loads (strictOut text) = some (JVal.arr xs)) ∧
    (∃ ys, json_loads (lenientOut text) = some (JVal.arr ys)) := by
  constructor
  · exact ⟨normL (best_findings text), by rw [strictOut, jdump2_loads]; simp [normV]⟩
  · exact ⟨normL (lenient_result text), by rw [lenientOut, jdump2_loads]; simp [normV]⟩


/-! ## C7: the bracket scan is the uncapped scan truncated to 40 spans -/

theorem bracketScanAux_take : ∀ (cs : List Char) (i : Nat) (stack : List Nat)
    (acc : List (Nat × Nat)), acc.length < 40 →
    bracketScanAux cs i stack acc = (acc.reverse ++ allSpansSpec cs i stack).take 40
  | [], i, stack, acc, h => by
    simp [bracketScanAux, allSpansSpec, List.take_of_length_le, Nat.le_of_lt, h]
  | c :: cs, i, stack, acc, h => by
    by_cases hc : c = '['
    · simp only [bracketScanAux, allSpansSpec, hc, if_pos rfl]
      exact bracketScanAux_take cs (i + 1) (i :: stack) acc h
    · by_cases hc' : c = ']'
      · match stack with
        | [] =>
          simp only [bracketScanAux, allSpansSpec, hc, hc', if_neg, if_pos rfl]
          exact bracketScanAux_take cs (i + 1) [] acc h
        | top :: rest =>
          by_cases h40 : 40 ≤ ((top, i + 1) :: acc).length
          · have hlen : acc.length = 39 := by
              simp at h40
              omega
            simp only [bracketScanAux, allSpansSpec, hc, hc', if_neg, if_pos rfl,
              if_pos h40]
            have : (acc.reverse ++ (top, i + 1) :: allSpansSpec cs (i + 1) rest).take 40 =
                acc.reverse ++ ((top, i + 1) :: allSpansSpec cs (i + 1) rest).take 1 := by
              have h39 : acc.reverse.length = 39 := by simp [hlen]
              rw [show (40 : Nat) = acc.reverse.length + 1 by omega]
              exact List.take_append ..
            simp [this]
          · simp only [bracketScanAux, allSpansSpec, hc, hc', if_neg, if_pos rfl,
              if_neg h40]
            rw [bracketScanAux_take cs (i + 1) rest ((top, i + 1) :: acc) (by simp at h40 ⊢; omega)]
            simp
      · simp only [bracketScanAux, allSpansSpec, hc, hc', if_neg]
        exact bracketScanAux_take cs (i + 1) stack acc h


/-- Stack-invariant lemma: every recorded span runs from a `[` to the `]`
that closes it. -/
theorem allSpansSpec_endpoints : ∀ (cs : List Char) (i : Nat) (stack : List Nat)
    (full : List Char), full.drop i = cs →
    (∀ s ∈ stack, s < i ∧ full.get? s = some '[') →
    ∀ p ∈ allSpansSpec cs i stack,
      p.1 < p.2 ∧ p.2 ≤ full.length ∧
      full.get? p.1 = some '[' ∧ full.get? (p.2 - 1) = some ']'
  | [], i, stack, full, hdrop, hstack => by simp [allSpansSpec]
  | c :: cs, i, stack, full, hdrop, hstack => by
    have hget : full.get? i = some c := by
      have := congrArg List.head? hdrop
      simpa [List.head?_drop] using this
    have hdrop' : full.drop (i + 1) = cs := by
      have := congrArg List.tail hdrop
      simpa [List.tail_drop] using this
    have hlt : i < full.length := List.get?_eq_some.mp hget |>.1
    by_cases hc : c = '['
    · subst hc
      simp only [allSpansSpec, if_pos rfl]
      refine allSpansSpec_endpoints cs (i + 1) (i :: stack) full hdrop' ?_
      intro s hs
      rcases List.mem_cons.mp hs with rfl | hs
      · exact ⟨Nat.lt_succ_self _, hget⟩
      · exact ⟨Nat.lt_succ_of_lt (hstack s hs).1, (hstack s hs).2⟩
    · by_cases hc' : c = ']'
      · subst hc'
        match stack with
        | [] =>
          simp only [allSpansSpec, hc, if_neg, if_pos rfl]
          exact allSpansSpec_endpoints cs (i + 1) [] full hdrop' (by simp)
        | top :: rest =>
          simp only [allSpansSpec, hc, if_neg, if_pos rfl]
          intro p hp
          rcases List.mem_cons.mp hp with rfl | hp
          · refine ⟨Nat.lt_succ_of_lt (hstack top (by simp)).1, hlt,
              (hstack top (by simp)).2, by simpa using hget⟩
          · exact allSpansSpec_endpoints cs (i + 1) rest full hdrop'
              (fun s hs => ⟨Nat.lt_succ_of_lt (hstack s (by simp [hs])).1,
                (hstack s (by simp [hs])).2⟩) p hp
      · simp only [allSpansSpec, hc, hc', if_neg]
        exact allSpansSpec_endpoints cs (i + 1) stack full hdrop'
          (fun s hs => ⟨Nat.lt_succ_of_lt (hstack s hs).1, (hstack s hs).2⟩)

set_option maxRecDepth 100000 in
/-- **C7.**  The strict engine's bracket scan records exactly the spans of
the uncapped single-pass stack scan truncated to the first 40 (so at most 40
fragments, each from an open `[` to the `]` that closes it, in closing
order); the scan is a total function, and 100 disjoint balanced spans yield
exactly 40 fragments. -/
theorem c7_bracket_scan_cap :
    (∀ text : String,
      bracketSpans text = (bracketSpansSpec text).take 40 ∧
      (strat5 text).length ≤ 40 ∧
      ∀ p ∈ bracketSpans text,
        p.1 < p.2 ∧ p.2 ≤ text.length ∧
        text.data.get? p.1 = some '[' ∧ text.data.get? (p.2 - 1) = some ']') ∧
    (strat5 c7text).length = 40 := by
  constructor
  · intro text
    have hmain : bracketSpans text = (bracketSpansSpec text).take 40 := by
      simpa [bracketSpans, bracketSpansSpec] using
        bracketScanAux_take text.data 0 [] [] (by norm_num)
    refine ⟨hmain, ?_, ?_⟩
    · simp only [strat5, List.length_map, hmain]
      exact le_trans (List.length_take_le 40 _) (le_refl _)
    · intro p hp
      have hsub : p ∈ bracketSpansSpec text := by
        rw [hmain] at hp
        exact List.take_subset _ _ hp
      have h := allSpansSpec_endpoints text.data 0 [] text.data rfl
        (fun s hs => absurd hs (List.not_mem_nil s)) p hsub
      have hlen : text.data.length = text.length := rfl
      exact ⟨h.1, by rw [← hlen]; exact h.2.1, h.2.2.1, h.2.2.2⟩
  · decide


/-! ## C10: a double-encoded findings document is decoded twice -/

theorem units_head_ne_quote {c : Char} {cs : List Char} (h : StrUnits (c :: cs)) :
    c ≠ '"' := by
  cases h with
  | raw h1 _ _ _ => exact h1
  | esc _ _ => decide
  | uesc _ _ _ _ _ => decide

theorem units_step {c : Char} {cs : List Char} (h : StrUnits (c :: cs))
    (hc : c ≠ '\\') : StrUnits cs := by
  cases h with
  | raw _ _ _ h4 => exact h4
  | esc _ _ => exact absurd rfl hc
  | uesc _ _ _ _ _ => exact absurd rfl hc

theorem units_drop_run : ∀ (xs : List Char) {ys : List Char},
    StrUnits (xs ++ ys) → (∀ c ∈ xs, c ≠ '\\') → StrUnits ys
  | [], _, h, _ => h
  | x :: xs, ys, h, hx =>
    units_drop_run xs (units_step h (hx x (by simp))) (fun c hc => hx c (by simp [hc]))

theorem units_append {a b : List Char} (ha : StrUnits a) (hb : StrUnits b) :
    StrUnits (a ++ b) := by
  induction ha with
  | nil => exact hb
  | raw h1 h2 h3 _ ih => exact StrUnits.raw h1 h2 h3 ih
  | esc he _ ih => exact StrUnits.esc he ih
  | uesc u1 u2 u3 u4 _ ih => exact StrUnits.uesc u1 u2 u3 u4 ih

theorem units_split_at {V : List Char} (hV : StrUnits V) :
    ∀ {g w : List Char} {c : Char},
    V = g ++ c :: w → notInterior c → StrUnits g ∧ StrUnits (c :: w) := by
  induction hV with
  | nil =>
    intro g w c he _
    exact absurd he.symm (by simp)
  | raw h1 h2 h3 htail ih =>
    intro g w c he hni
    match g with
    | [] =>
      rw [List.nil_append] at he
      injection he with he1 he2
      subst he1
      subst he2
      exact ⟨StrUnits.nil, StrUnits.raw h1 h2 h3 htail⟩
    | a :: g' =>
      rw [List.cons_append] at he
      injection he with he1 he2
      subst he1
      obtain ⟨hg, hw⟩ := ih he2 hni
      exact ⟨StrUnits.raw h1 h2 h3 hg, hw⟩
  | esc he0 htail ih =>
    intro g w c he hni
    match g with
    | [] =>
      rw [List.nil_append] at he
      injection he with he1 he2
      subst he1
      exact absurd rfl hni.2.1
    | [a] =>
      rw [List.cons_append, List.nil_append] at he
      injection he with he1 he2
      injection he2 with he3 he4
      subst he3
      rcases he0 with rfl | rfl | rfl | rfl | rfl | rfl | rfl | rfl
      · exact absurd rfl hni.1
      · exact absurd rfl hni.2.1
      · exact absurd rfl hni.2.2.1
      · exact absurd rfl hni.2.2.2.1
      · exact absurd rfl hni.2.2.2.2.1
      · exact absurd rfl hni.2.2.2.2.2.1
      · exact absurd rfl hni.2.2.2.2.2.2.1
      · exact absurd rfl hni.2.2.2.2.2.2.2.1
    | a :: b :: g' =>
      rw [List.cons_append, List.cons_append] at he
      injection he with he1 he2
      injection he2 with he3 he4
      subst he1
      subst he3
      obtain ⟨hg, hw⟩ := ih he4 hni
      exact ⟨StrUnits.esc he0 hg, hw⟩
  | uesc u1 u2 u3 u4 htail ih =>
    intro g w c he hni
    have hhex := hni.2.2.2.2.2.2.2.2.2
    match g with
    | [] =>
      rw [List.nil_append] at he
      injection he with he1 he2
      subst he1
      exact absurd rfl hni.2.1
    | [a] =>
      rw [List.cons_append, List.nil_append] at he
      injection he with he1 he2
      injection he2 with he3 he4
      subst he3
      exact absurd rfl hni.2.2.2.2.2.2.2.2.1
    | [a, b] =>
      rw [List.cons_append, List.cons_append, List.nil_append] at he
      injection he with he1 he2
      injection he2 with he3 he4
      injection he4 with he5 he6
      subst he5
      rw [hhex] at u1
      simp at u1
    | [a, b, c'] =>
      rw [List.cons_append, List.cons_append, List.cons_append, List.nil_append] at he
      injection he with he1 he2
      injection he2 with he3 he4
      injection he4 with he5 he6
      injection he6 with he7 he8
      subst he7
      rw [hhex] at u2
      simp at u2
    | [a, b, c', d] =>
      rw [List.cons_append, List.cons_append, List.cons_append, List.cons_append,
        List.nil_append] at he
      injection he with he1 he2
      injection he2 with he3 he4
      injection he4 with he5 he6
      injection he6 with he7 he8
      injection he8 with he9 he10
      subst he9
      rw [hhex] at u3
      simp at u3
    | [a, b, c', d, e'] =>
      rw [List.cons_append, List.cons_append, List.cons_append, List.cons_append,
        List.cons_append, List.nil_append] at he
      injection he with he1 he2
      injection he2 with he3 he4
      injection he4 with he5 he6
      injection he6 with he7 he8
      injection he8 with he9 he10
      injection he10 with he11 he12
      subst he11
      rw [hhex] at u4
      simp at u4
    | a :: b :: c' :: d :: e' :: f' :: g' =>
      rw [List.cons_append, List.cons_append, List.cons_append, List.cons_append,
        List.cons_append, List.cons_append] at he
      injection he with he1 he2
      injection he2 with he3 he4
      injection he4 with he5 he6
      injection he6 with he7 he8
      injection he8 with he9 he10
      injection he10 with he11 he12
      subst he1
      subst he3
      subst he5
      subst he7
      subst he9
      subst he11
      obtain ⟨hg, hw⟩ := ih he12 hni
      exact ⟨StrUnits.uesc u1 u2 u3 u4 hg, hw⟩

theorem ws_ne_backslash {c : Char} (h : isJsonWs c = true) : c ≠ '\\' := by
  intro he
  subst he
  simp [isJsonWs] at h

theorem pyWs_ne_backslash {c : Char} (h : isPyWs c = true) : c ≠ '\\' := by
  intro he
  subst he
  simp [isPyWs] at h

theorem skipWs_units : ∀ (cs : List Char), StrUnits cs → StrUnits (skipWs cs)
  | [], h => h
  | c :: cs, h => by
    by_cases hw : isJsonWs c = true
    · rw [skipWs, if_pos hw]
      exact skipWs_units cs (units_step h (ws_ne_backslash hw))
    · rw [skipWs, if_neg (by simpa using hw)]
      exact h

theorem hex4_inv : ∀ {cs : List Char} {n : Nat} {rest : List Char},
    hex4 cs = some (n, rest) →
    ∃ a b c d, cs = a :: b :: c :: d :: rest ∧
      (hexVal a).isSome ∧ (hexVal b).isSome ∧ (hexVal c).isSome ∧
      (hexVal d).isSome := by
  intro cs n rest h
  match cs with
  | [] => simp [hex4] at h
  | [a] => simp [hex4] at h
  | [a, b] => simp [hex4] at h
  | [a, b, c] => simp [hex4] at h
  | a :: b :: c :: d :: r =>
    rcases hva : hexVal a with _ | x <;> rcases hvb : hexVal b with _ | y <;>
      rcases hvc : hexVal c with _ | z <;> rcases hvd : hexVal d with _ | w <;>
      simp only [hex4, hva, hvb, hvc, hvd] at h <;>
      try exact Option.noConfusion h
    simp only [Option.some.injEq, Prod.mk.injEq] at h
    exact ⟨a, b, c, d, by rw [h.2], by simp [hva], by simp [hvb], by simp [hvc],
      by simp [hvd]⟩

theorem pjStr_units : ∀ (fuel : Nat) (acc cs content rest : List Char),
    pjStr fuel acc cs = some (content, rest) →
    ∃ U, cs = U ++ '"' :: rest ∧ StrUnits U := by
  intro fuel
  induction fuel with
  | zero =>
    intro acc cs content rest h
    simp [pjStr] at h
  | succ f ih =>
    intro acc cs content rest h
    match cs with
    | [] => simp [pjStr] at h
    | c :: t =>
      by_cases h1 : c = '"'
      · subst h1
        have ht : t = rest := by
          have := (by simpa [pjStr] using h : acc.reverse = content ∧ t = rest)
          exact this.2
        exact ⟨[], by simp [ht], StrUnits.nil⟩
      · by_cases h2 : c = '\\'
        · subst h2
          match t with
          | [] => simp [pjStr, h1] at h
          | e :: t₁ =>
            by_cases he1 : e = '"'
            · subst he1
              rw [pjStr] at h
              simp only [if_neg h1, if_pos rfl] at h
              obtain ⟨U, hcs, hU⟩ := ih _ _ _ _ h
              exact ⟨'\\' :: '"' :: U, by rw [hcs]; rfl,
                StrUnits.esc (by simp) hU⟩
            · by_cases he2 : e = '\\'
              · subst he2
                rw [pjStr] at h
                simp only [if_neg h1, if_pos rfl, if_neg he1] at h
                obtain ⟨U, hcs, hU⟩ := ih _ _ _ _ h
                exact ⟨'\\' :: '\\' :: U, by rw [hcs]; rfl,
                  StrUnits.esc (by simp) hU⟩
              · by_cases he3 : e = '/'
                · subst he3
                  rw [pjStr] at h
                  simp only [if_neg h1, if_pos rfl, if_neg he1, if_neg he2] at h
                  obtain ⟨U, hcs, hU⟩ := ih _ _ _ _ h
                  exact ⟨'\\' :: '/' :: U, by rw [hcs]; rfl,
                    StrUnits.esc (by simp) hU⟩
                · by_cases he4 : e = 'b'
                  · subst he4
                    rw [pjStr] at h
                    simp only [if_neg h1, if_pos rfl, if_neg he1, if_neg he2,
                      if_neg he3] at h
                    obtain ⟨U, hcs, hU⟩ := ih _ _ _ _ h
                    exact ⟨'\\' :: 'b' :: U, by rw [hcs]; rfl,
                      StrUnits.esc (by simp) hU⟩
                  · by_cases he5 : e = 'f'
                    · subst he5
                      rw [pjStr] at h
                      simp only [if_neg h1, if_pos rfl, if_neg he1, if_neg he2,
                        if_neg he3, if_neg he4] at h
                      obtain ⟨U, hcs, hU⟩ := ih _ _ _ _ h
                      exact ⟨'\\' :: 'f' :: U, by rw [hcs]; rfl,
                        StrUnits.esc (by simp) hU⟩
                    · by_cases he6 : e = 'n'
                      · subst he6
                        rw [pjStr] at h
                        simp only [if_neg h1, if_pos rfl, if_neg he1, if_neg he2,
                          if_neg he3, if_neg he4, if_neg he5] at h
                        obtain ⟨U, hcs, hU⟩ := ih _ _ _ _ h
                        exact ⟨'\\' :: 'n' :: U, by rw [hcs]; rfl,
                          StrUnits.esc (by simp) hU⟩
                      · by_cases he7 : e = 'r'
                        · subst he7
                          rw [pjStr] at h
                          simp only [if_neg h1, if_pos rfl, if_neg he1, if_neg he2,
                            if_neg he3, if_neg he4, if_neg he5, if_neg he6] at h
                          obtain ⟨U, hcs, hU⟩ := ih _ _ _ _ h
                          exact ⟨'\\' :: 'r' :: U, by rw [hcs]; rfl,
                            StrUnits.esc (by simp) hU⟩
                        · by_cases he8 : e = 't'
                          · subst he8
                            rw [pjStr] at h
                            simp only [if_neg h1, if_pos rfl, if_neg he1, if_neg he2,
                              if_neg he3, if_neg he4, if_neg he5, if_neg he6,
                              if_neg he7] at h
                            obtain ⟨U, hcs, hU⟩ := ih _ _ _ _ h
                            exact ⟨'\\' :: 't' :: U, by rw [hcs]; rfl,
                              StrUnits.esc (by simp) hU⟩
                          · by_cases he9 : e = 'u'
                            · subst he9
                              rw [pjStr] at h
                              simp only [if_neg h1, if_pos rfl, if_neg he1,
                                if_neg he2, if_neg he3, if_neg he4, if_neg he5,
                                if_neg he6, if_neg he7, if_neg he8] at h
                              rcases hh4 : hex4 t₁ with _ | ⟨n, rest₂⟩
                              · rw [hh4] at h
                                simp at h
                              · rw [hh4] at h
                                simp only [if_true] at h
                                obtain ⟨a, b, c', d, ht₁, ha, hb, hc', hd⟩ :=
                                  hex4_inv hh4
                                by_cases hs1 : 0xd800 ≤ n ∧ n ≤ 0xdbff
                                · rw [if_pos hs1] at h
                                  by_cases hs2 : rest₂.head? = some '\\' ∧
                                      rest₂.tail.head? = some 'u'
                                  · rw [if_pos hs2] at h
                                    rcases rest₂ with _ | ⟨r₁, _ | ⟨r₂, r₃⟩⟩
                                    · simp at hs2
                                    · simp at hs2
                                    · obtain ⟨hr₁, hr₂⟩ : r₁ = '\\' ∧ r₂ = 'u' := by
                                        constructor
                                        · simpa using hs2.1
                                        · simpa using hs2.2
                                      subst hr₁
                                      subst hr₂
                                      simp only [List.tail_cons] at h
                                      rcases hh4b : hex4 r₃ with _ | ⟨m, rest₄⟩
                                      · rw [hh4b] at h
                                        obtain ⟨U, hcs, hU⟩ := ih _ _ _ _ h
                                        refine ⟨'\\' :: 'u' :: a :: b :: c' :: d :: U,
                                          ?_, StrUnits.uesc ha hb hc' hd hU⟩
                                        rw [ht₁, hcs]
                                        rfl
                                      · rw [hh4b] at h
                                        simp only [if_true] at h
                                        obtain ⟨a₂, b₂, c₂, d₂, hr₃, ha₂, hb₂,
                                          hc₂, hd₂⟩ := hex4_inv hh4b
                                        by_cases hs3 : 0xdc00 ≤ m ∧ m ≤ 0xdfff
                                        · rw [if_pos hs3] at h
                                          obtain ⟨U, hcs, hU⟩ := ih _ _ _ _ h
                                          refine ⟨'\\' :: 'u' :: a :: b :: c' :: d ::
                                            '\\' :: 'u' :: a₂ :: b₂ :: c₂ :: d₂ :: U,
                                            ?_, StrUnits.uesc ha hb hc' hd
                                              (StrUnits.uesc ha₂ hb₂ hc₂ hd₂ hU)⟩
                                          rw [ht₁, hr₃, hcs]
                                          rfl
                                        · rw [if_neg hs3] at h
                                          obtain ⟨U, hcs, hU⟩ := ih _ _ _ _ h
                                          refine ⟨'\\' :: 'u' :: a :: b :: c' :: d :: U,
                                            ?_, StrUnits.uesc ha hb hc' hd hU⟩
                                          rw [ht₁, hcs]
                                          rfl
                                  · rw [if_neg hs2] at h
                                    obtain ⟨U, hcs, hU⟩ := ih _ _ _ _ h
                                    exact ⟨'\\' :: 'u' :: a :: b :: c' :: d :: U,
                                      by rw [ht₁, hcs]; rfl,
                                      StrUnits.uesc ha hb hc' hd hU⟩
                                · rw [if_neg hs1] at h
                                  by_cases hs4 : 0xdc00 ≤ n ∧ n ≤ 0xdfff
                                  · rw [if_pos hs4] at h
                                    obtain ⟨U, hcs, hU⟩ := ih _ _ _ _ h
                                    exact ⟨'\\' :: 'u' :: a :: b :: c' :: d :: U,
                                      by rw [ht₁, hcs]; rfl,
                                      StrUnits.uesc ha hb hc' hd hU⟩
                                  · rw [if_neg hs4] at h
                                    obtain ⟨U, hcs, hU⟩ := ih _ _ _ _ h
                                    exact ⟨'\\' :: 'u' :: a :: b :: c' :: d :: U,
                                      by rw [ht₁, hcs]; rfl,
                                      StrUnits.uesc ha hb hc' hd hU⟩
                            · rw [pjStr] at h
                              simp only [if_neg h1, if_pos rfl, if_neg he1,
                                if_neg he2, if_neg he3, if_neg he4, if_neg he5,
                                if_neg he6, if_neg he7, if_neg he8, if_neg he9] at h
                              simp at h
        · by_cases h3 : c.toNat < 0x20
          · exact Option.noConfusion
              (by simpa only [pjStr, if_neg h1, if_neg h2, if_pos h3] using h)
          · simp only [pjStr, if_neg h1, if_neg h2, if_neg h3] at h
            obtain ⟨U, hcs, hU⟩ := ih _ _ _ _ h
            exact ⟨c :: U, by rw [hcs]; rfl, StrUnits.raw h1 h2 h3 hU⟩

theorem skipWs_decomp : ∀ cs : List Char,
    ∃ w, cs = w ++ skipWs cs ∧ ∀ c ∈ w, isJsonWs c = true
  | [] => ⟨[], rfl, by simp⟩
  | c :: cs => by
    by_cases hw : isJsonWs c = true
    · obtain ⟨w, he, hws⟩ := skipWs_decomp cs
      refine ⟨c :: w, ?_, ?_⟩
      · rw [skipWs, if_pos hw, List.cons_append, ← he]
      · intro d hd
        rcases List.mem_cons.mp hd with rfl | hd'
        · exact hw
        · exact hws d hd'
    · exact ⟨[], by rw [skipWs, if_neg (by simpa using hw)]; rfl, by simp⟩

theorem skipWs_nil_ws : ∀ cs : List Char, skipWs cs = [] →
    ∀ c ∈ cs, isJsonWs c = true
  | [], _, c, hc => by simp at hc
  | c :: cs, h, d, hd => by
    by_cases hw : isJsonWs c = true
    · rw [skipWs, if_pos hw] at h
      rcases List.mem_cons.mp hd with rfl | hd'
      · exact hw
      · exact skipWs_nil_ws cs h d hd'
    · rw [skipWs, if_neg (by simpa using hw)] at h
      simp at h

theorem pjValue_str_inv {fuel : Nat} {cs : List Char} {s : String}
    {rest : List Char} (h : pjValue fuel cs = some (JVal.str s, rest)) :
    ∃ body, skipWs cs = '"' :: body ∧ pjStr fuel [] body = some (s.data, rest) := by
  match fuel with
  | 0 => simp [pjValue] at h
  | f + 1 =>
    rw [pjValue] at h
    split at h
    · exact Option.noConfusion h
    next c rest₀ heq =>
      split at h
      · split at h
        · simp at h
        · split at h
          · simp at h
          · exact Option.noConfusion h
      · split at h
        · split at h
          · simp at h
          · split at h
            · simp at h
            · exact Option.noConfusion h
        · split at h
          · next hc =>
            subst hc
            split at h
            next content r hstr =>
              obtain ⟨hv, hr⟩ : JVal.str (String.mk content) = JVal.str s ∧ r = rest := by
                simpa using h
              refine ⟨rest₀, heq, ?_⟩
              have : String.mk content = s := by injection hv
              rw [← hr, ← this]
              exact hstr
            · exact Option.noConfusion h
          · split at h
            · split at h
              · simp at h
              · exact Option.noConfusion h
            · split at h
              · split at h
                · simp at h
                · exact Option.noConfusion h
              · split at h
                · split at h
                  · simp at h
                  · exact Option.noConfusion h
                · split at h
                  · split at h
                    · simp at h
                    · exact Option.noConfusion h
                  · exact Option.noConfusion h

theorem json_loads_str_inv {t s : String} (h : json_loads t = some (JVal.str s)) :
    ∃ W1 U W2, t.data = W1 ++ '"' :: (U ++ '"' :: W2) ∧
      (∀ c ∈ W1, isJsonWs c = true) ∧ (∀ c ∈ W2, isJsonWs c = true) ∧
      StrUnits U := by
  rcases hpv : pjValue (2 * t.data.length + 2) t.data with _ | ⟨v, rest⟩
  · rw [json_loads, json_loadsList, hpv] at h
    exact Option.noConfusion h
  · rw [json_loads, json_loadsList, hpv] at h
    simp only [] at h
    by_cases he : (skipWs rest).isEmpty = true
    · rw [if_pos he] at h
      have hv : v = JVal.str s := by simpa using h
      subst hv
      obtain ⟨body, hsk, hstr⟩ := pjValue_str_inv hpv
      obtain ⟨U, hbody, hU⟩ := pjStr_units _ _ _ _ _ hstr
      obtain ⟨W1, hW1, hW1ws⟩ := skipWs_decomp t.data
      refine ⟨W1, U, rest, ?_, hW1ws, ?_, hU⟩
      · rw [hW1, hsk, hbody]
      · exact skipWs_nil_ws rest (List.isEmpty_iff.mp he)
    · rw [if_neg he] at h
      exact Option.noConfusion h

theorem master_cut {U W2 : List Char} (hW2 : ∀ c ∈ W2, isJsonWs c = true)
    {p z : List Char} {c : Char} (he : U ++ '"' :: W2 = p ++ c :: z)
    (hcw : isJsonWs c = false) (hcq : c ≠ '"') :
    ∃ w, U = p ++ c :: w ∧ z = w ++ '"' :: W2 := by
  rcases List.append_eq_append_iff.mp he with ⟨t, hp, hb⟩ | ⟨t, hU, hd⟩
  · match t, hb with
    | [], hb =>
      injection hb with hb1 _
      exact absurd hb1.symm hcq
    | t₀ :: t', hb =>
      injection hb with hb1 hb2
      have hcmem : c ∈ W2 := by
        rw [hb2]
        exact List.mem_append.mpr (Or.inr (by simp))
      rw [hW2 c hcmem] at hcw
      exact Bool.noConfusion hcw
  · match t, hd with
    | [], hd =>
      injection hd with hd1 _
      exact absurd hd1 hcq
    | t₀ :: t', hd =>
      injection hd with hd1 hd2
      subst hd1
      exact ⟨t', by rw [hU], hd2⟩

theorem master_cut_full {W1 U W2 : List Char}
    (hW1 : ∀ c ∈ W1, isJsonWs c = true) (hW2 : ∀ c ∈ W2, isJsonWs c = true)
    {pre z : List Char} {c : Char}
    (he : W1 ++ '"' :: (U ++ '"' :: W2) = pre ++ c :: z)
    (hcw : isJsonWs c = false) (hcq : c ≠ '"') :
    ∃ u w, U = u ++ c :: w ∧ z = w ++ '"' :: W2 := by
  have he' : (W1 ++ ['"']) ++ (U ++ '"' :: W2) = pre ++ c :: z := by
    rw [show (W1 ++ ['"']) ++ (U ++ '"' :: W2) = W1 ++ '"' :: (U ++ '"' :: W2) from
      by simp]
    exact he
  rcases List.append_eq_append_iff.mp he' with ⟨t, hp, hb⟩ | ⟨t, hW, hd⟩
  · obtain ⟨w, hU, hz⟩ := master_cut hW2 hb hcw hcq
    exact ⟨t, w, hU, hz⟩
  · match t, hd with
    | [], hd =>
      rw [List.nil_append] at hd
      obtain ⟨w, hU, hz⟩ := master_cut hW2 (show U ++ '"' :: W2 = [] ++ c :: z from
        by rw [List.nil_append]; exact hd.symm) hcw hcq
      exact ⟨[], w, hU, hz⟩
    | t₀ :: t', hd =>
      injection hd with hd1 hd2
      subst hd1
      have hcmem : c ∈ W1 ++ ['"'] := by
        rw [hW]
        exact List.mem_append.mpr (Or.inr (by simp))
      rcases List.mem_append.mp hcmem with hm | hm
      · rw [hW1 c hm] at hcw
        exact Bool.noConfusion hcw
      · exact absurd (by simpa using hm) hcq

theorem digit_ne_backslash {c : Char} (h : c.isDigit = true) : c ≠ '\\' :=
  digit_ne h (by decide)

theorem pjSign_units {cs : List Char} (h : StrUnits cs) :
    StrUnits (pjSign cs).2 := by
  match cs with
  | [] => exact h
  | c :: t =>
    by_cases hc : c = '-'
    · rw [pjSign]
      simp only [if_pos hc]
      exact units_step h (by rw [hc]; decide)
    · rw [pjSign]
      simp only [if_neg hc]
      exact h

theorem digitRun_units : ∀ {cs : List Char}, StrUnits cs →
    StrUnits (digitRun cs).2
  | [], h => h
  | c :: t, h => by
    by_cases hd : c.isDigit = true
    · rw [digitRun, if_pos hd]
      exact digitRun_units (units_step h (digit_ne_backslash hd))
    · rw [digitRun, if_neg (by simpa using hd)]
      exact h

theorem pjFrac_units {cs : List Char} (h : StrUnits cs) :
    StrUnits (pjFrac cs).2.1 := by
  match cs with
  | [] => exact h
  | c :: t =>
    by_cases hc : c = '.'
    · rw [pjFrac]
      simp only [if_pos hc]
      exact digitRun_units (units_step h (by rw [hc]; decide))
    · rw [pjFrac]
      simp only [if_neg hc]
      exact h

theorem pjExp_units {cs : List Char} (h : StrUnits cs) :
    StrUnits (pjExp cs).2.1 := by
  match cs with
  | [] => exact h
  | c :: t =>
    by_cases hc : c = 'e' ∨ c = 'E'
    · have ht : StrUnits t := units_step h (by rcases hc with rfl | rfl <;> decide)
      rw [pjExp.eq_def]
      simp only [if_pos hc]
      match t, ht with
      | [], ht => exact digitRun_units ht
      | d :: t₂, ht =>
        by_cases hd1 : d = '+'
        · simp only [if_pos hd1]
          exact digitRun_units (units_step ht (by rw [hd1]; decide))
        · by_cases hd2 : d = '-'
          · simp only [if_neg hd1, if_pos hd2]
            exact digitRun_units (units_step ht (by rw [hd2]; decide))
          · simp only [if_neg hd1, if_neg hd2]
            exact digitRun_units ht
    · rw [pjExp.eq_def]
      simp only [if_neg hc]
      exact h

theorem pjNum_units {cs : List Char} {x : JNum} {rest : List Char}
    (hU : StrUnits cs) (h : pjNum cs = some (x, rest)) : StrUnits rest := by
  have hfin : StrUnits (pjExp (pjFrac (digitRun (pjSign cs).2).2).2.1).2.1 :=
    pjExp_units (pjFrac_units (digitRun_units (pjSign_units hU)))
  rw [pjNum] at h
  split at h
  · exact Option.noConfusion h
  · split at h
    · exact Option.noConfusion h
    · simp only [] at h
      split at h
      · exact Option.noConfusion h
      · split at h
        · exact Option.noConfusion h
        · simp only [Option.some.injEq, Prod.mk.injEq] at h
          exact h.2 ▸ hfin

theorem strFreeL_iff : ∀ l : List JVal, strFreeL l ↔ ∀ x ∈ l, strFree x
  | [] => by simp [strFreeL]
  | x :: xs => by
    rw [strFreeL]
    constructor
    · rintro ⟨h1, h2⟩ y hy
      rcases List.mem_cons.mp hy with rfl | hy'
      · exact h1
      · exact (strFreeL_iff xs).mp h2 y hy'
    · intro hall
      exact ⟨hall x (by simp), (strFreeL_iff xs).mpr (fun y hy => hall y (by simp [hy]))⟩

theorem units_parse : ∀ fuel : Nat,
    (∀ cs v rest, StrUnits cs → pjValue fuel cs = some (v, rest) →
       strFree v ∧ StrUnits rest) ∧
    (∀ cs acc xs rest, StrUnits cs → strFreeL acc →
       pjElems fuel acc cs = some (xs, rest) → strFreeL xs ∧ StrUnits rest) ∧
    (∀ cs acc fs rest, StrUnits cs → pjMembers fuel acc cs = some (fs, rest) →
       False) := by
  intro fuel
  induction fuel with
  | zero =>
    refine ⟨?_, ?_, ?_⟩
    · intro cs v rest _ h
      simp [pjValue] at h
    · intro cs acc xs rest _ _ h
      simp [pjElems] at h
    · intro cs acc fs rest _ h
      simp [pjMembers] at h
  | succ f ih =>
    obtain ⟨ihA, ihB, ihC⟩ := ih
    refine ⟨?_, ?_, ?_⟩
    · intro cs v rest hcs h
      have hsk : StrUnits (skipWs cs) := skipWs_units _ hcs
      rw [pjValue] at h
      split at h
      · exact Option.noConfusion h
      next c rest₀ heq =>
        rw [heq] at hsk
        split at h
        next hc =>
          subst hc
          have h0 : StrUnits rest₀ := units_step hsk (by decide)
          have hsk0 : StrUnits (skipWs rest₀) := skipWs_units _ h0
          split at h
          next hh =>
            obtain ⟨hv, hr⟩ : JVal.obj [] = v ∧ (skipWs rest₀).tail = rest := by
              simpa using h
            refine ⟨by rw [← hv]; rfl, ?_⟩
            rcases hsw : skipWs rest₀ with _ | ⟨d, tl⟩
            · rw [hsw] at hh
              simp at hh
            · rw [hsw] at hh hr
              have hd : d = '\x7d' := by simpa using hh
              rw [hsw] at hsk0
              rw [← hr]
              exact units_step hsk0 (by rw [hd]; decide)
          · split at h
            next fs0 r0 hmem => exact absurd (ihC _ _ _ _ h0 hmem) not_false
            · exact Option.noConfusion h
        · split at h
          next hc =>
            subst hc
            have h0 : StrUnits rest₀ := units_step hsk (by decide)
            have hsk0 : StrUnits (skipWs rest₀) := skipWs_units _ h0
            split at h
            next hh =>
              obtain ⟨hv, hr⟩ : JVal.arr [] = v ∧ (skipWs rest₀).tail = rest := by
                simpa using h
              refine ⟨by rw [← hv]; exact trivial, ?_⟩
              rcases hsw : skipWs rest₀ with _ | ⟨d, tl⟩
              · rw [hsw] at hh
                simp at hh
              · rw [hsw] at hh hr
                have hd : d = ']' := by simpa using hh
                rw [hsw] at hsk0
                rw [← hr]
                exact units_step hsk0 (by rw [hd]; decide)
            · split at h
              next xs0 r0 helems =>
                obtain ⟨hv, hr⟩ : JVal.arr xs0 = v ∧ r0 = rest := by simpa using h
                obtain ⟨hfree, hrest⟩ := ihB _ [] _ _ h0 trivial helems
                exact ⟨by rw [← hv]; exact hfree, hr ▸ hrest⟩
              · exact Option.noConfusion h
          · split at h
            next hc => exact absurd hc (units_head_ne_quote hsk)
            · split at h
              next hc =>
                subst hc
                split at h
                next r0 =>
                  obtain ⟨hv, hr⟩ : JVal.bool true = v ∧ r0 = rest := by simpa using h
                  have h0 : StrUnits ('r' :: 'u' :: 'e' :: r0) :=
                    units_step hsk (by decide)
                  refine ⟨by rw [← hv]; exact trivial, ?_⟩
                  rw [← hr]
                  exact units_step (units_step (units_step h0 (by decide))
                    (by decide)) (by decide)
                · exact Option.noConfusion h
              · split at h
                next hc =>
                  subst hc
                  split at h
                  next r0 =>
                    obtain ⟨hv, hr⟩ : JVal.bool false = v ∧ r0 = rest := by
                      simpa using h
                    have h0 : StrUnits ('a' :: 'l' :: 's' :: 'e' :: r0) :=
                      units_step hsk (by decide)
                    refine ⟨by rw [← hv]; exact trivial, ?_⟩
                    rw [← hr]
                    exact units_step (units_step (units_step (units_step h0
                      (by decide)) (by decide)) (by decide)) (by decide)
                  · exact Option.noConfusion h
                · split at h
                  next hc =>
                    subst hc
                    split at h
                    next r0 =>
                      obtain ⟨hv, hr⟩ : JVal.null = v ∧ r0 = rest := by
                        simpa using h
                      have h0 : StrUnits ('u' :: 'l' :: 'l' :: r0) :=
                        units_step hsk (by decide)
                      refine ⟨by rw [← hv]; exact trivial, ?_⟩
                      rw [← hr]
                      exact units_step (units_step (units_step h0 (by decide))
                        (by decide)) (by decide)
                    · exact Option.noConfusion h
                  · split at h
                    · split at h
                      next n0 r0 hnum =>
                        obtain ⟨hv, hr⟩ : JVal.num n0 = v ∧ r0 = rest := by
                          simpa using h
                        refine ⟨by rw [← hv]; exact trivial, ?_⟩
                        rw [← hr]
                        exact pjNum_units hsk hnum
                      · exact Option.noConfusion h
                    · exact Option.noConfusion h
    · intro cs acc xs rest hcs hacc h
      rw [pjElems] at h
      split at h
      · exact Option.noConfusion h
      next v rest' hval =>
        obtain ⟨hvfree, hrest'⟩ := ihA _ _ _ hcs hval
        have hsk' : StrUnits (skipWs rest') := skipWs_units _ hrest'
        split at h
        next rest₂ heq2 =>
          rw [heq2] at hsk'
          exact ihB _ (v :: acc) _ _ (units_step hsk' (by decide))
            ⟨hvfree, hacc⟩ h
        next rest₂ heq2 =>
          obtain ⟨hxs, hr⟩ : (v :: acc).reverse = xs ∧ rest₂ = rest := by
            simpa using h
          rw [heq2] at hsk'
          refine ⟨?_, by rw [← hr]; exact units_step hsk' (by decide)⟩
          rw [← hxs]
          exact (strFreeL_iff _).mpr (fun y hy =>
            (strFreeL_iff (v :: acc)).mp (show strFreeL (v :: acc) from ⟨hvfree, hacc⟩)
              y (List.mem_reverse.mp hy))
        · exact Option.noConfusion h
    · intro cs acc fs rest hcs h
      rw [pjMembers] at h
      split at h
      next rest₁ heq =>
        exact absurd rfl (units_head_ne_quote (heq ▸ skipWs_units _ hcs))
      · exact Option.noConfusion h

theorem strFree_not_valid : ∀ {x : JVal}, strFree x → validFinding x = false
  | JVal.null, _ => rfl
  | JVal.bool _, _ => rfl
  | JVal.num _, _ => rfl
  | JVal.str _, hx => hx.elim
  | JVal.arr _, _ => rfl
  | JVal.obj fs, hx => by
    have : fs = [] := hx
    subst this
    decide

theorem strFree_score_le {v : JVal} (hv : strFree v) :
    (score_array (unwrapFindings (some v))).1 ≤ 0 := by
  match v with
  | JVal.null => simp [unwrapFindings, score_array]
  | JVal.bool b => simp [unwrapFindings, score_array]
  | JVal.num x => simp [unwrapFindings, score_array]
  | JVal.str s => exact hv.elim
  | JVal.obj fs =>
    have : fs = [] := hv
    subst this
    simp [unwrapFindings, lookupField, score_array]
  | JVal.arr xs =>
    have hfree : ∀ y ∈ xs, strFree y := (strFreeL_iff xs).mp hv
    rw [show unwrapFindings (some (JVal.arr xs)) = some (JVal.arr xs) from rfl]
    rw [score_array]
    by_cases he : (xs.filter isDict).isEmpty = true
    · simp only [he, if_pos]
      norm_num
    · simp only [he, if_neg, Bool.not_eq_true]
      have hnil : (xs.filter isDict).filter validFinding = [] := by
        rw [List.filter_eq_nil_iff]
        intro a ha
        rw [strFree_not_valid (hfree a (List.mem_of_mem_filter ha))]
        simp
      simp [hnil]

theorem units_frag_score {fs : String} (hU : StrUnits fs.data) :
    (candScore (Cand.frag fs)).1 ≤ 0 := by
  show (score_array (unwrapFindings (json_loads fs))).1 ≤ 0
  rcases hpv : pjValue (2 * fs.data.length + 2) fs.data with _ | ⟨v, rest⟩
  · rw [json_loads, json_loadsList, hpv]
    simp [unwrapFindings, score_array]
  · rw [json_loads, json_loadsList, hpv]
    simp only []
    by_cases he : (skipWs rest).isEmpty = true
    · rw [if_pos he]
      exact strFree_score_le ((units_parse _).1 _ _ _ hU hpv).1
    · rw [if_neg he]
      simp [unwrapFindings, score_array]

theorem fenceOpen_inv : ∀ {cs afterTag : List Char}, fenceOpen? cs = some afterTag →
    ∃ c₁ c₂ c₃ c₄, cs = '\x60' :: '\x60' :: '\x60' :: c₁ :: c₂ :: c₃ :: c₄ :: afterTag ∧
      c₁ ≠ '\\' ∧ c₂ ≠ '\\' ∧ c₃ ≠ '\\' ∧ c₄ ≠ '\\' := by
  intro cs afterTag h
  match cs with
  | [] => simp [fenceOpen?] at h
  | [a] => simp [fenceOpen?] at h
  | [a, b] => simp [fenceOpen?] at h
  | [a, b, c] => simp [fenceOpen?] at h
  | [a, b, c, d] => simp [fenceOpen?] at h
  | [a, b, c, d, e] => simp [fenceOpen?] at h
  | [a, b, c, d, e, f'] => simp [fenceOpen?] at h
  | a :: b :: c :: c₁ :: c₂ :: c₃ :: c₄ :: rest =>
    by_cases hc : a = '\x60' ∧ b = '\x60' ∧ c = '\x60' ∧ (c₁ = 'j' ∨ c₁ = 'J') ∧
       (c₂ = 's' ∨ c₂ = 'S') ∧ (c₃ = 'o' ∨ c₃ = 'O') ∧ (c₄ = 'n' ∨ c₄ = 'N')
    · rw [fenceOpen?, if_pos hc] at h
      have hrest : rest = afterTag := by simpa using h
      obtain ⟨ha, hb, hcc, h1, h2, h3, h4⟩ := hc
      subst ha
      subst hb
      subst hcc
      subst hrest
      refine ⟨c₁, c₂, c₃, c₄, rfl, ?_, ?_, ?_, ?_⟩
      · rcases h1 with rfl | rfl <;> decide
      · rcases h2 with rfl | rfl <;> decide
      · rcases h3 with rfl | rfl <;> decide
      · rcases h4 with rfl | rfl <;> decide
    · rw [fenceOpen?, if_neg hc] at h
      exact Option.noConfusion h

theorem findFence_spec : ∀ (cs b r : List Char), findFence cs = some (b, r) →
    cs = b ++ '\x60' :: '\x60' :: '\x60' :: r
  | [], b, r, h => by simp [findFence] at h
  | c :: cs, b, r, h => by
    by_cases hc : c = '\x60' ∧ cs.head? = some '\x60' ∧ cs.tail.head? = some '\x60'
    · rw [findFence, if_pos hc] at h
      obtain ⟨hb, hr⟩ : [] = b ∧ cs.tail.tail = r := by simpa using h
      obtain ⟨hc1, hc2, hc3⟩ := hc
      subst hc1
      rcases cs with _ | ⟨d, _ | ⟨e, t⟩⟩
      · simp at hc2
      · simp at hc3
      · have hd : d = '\x60' := by simpa using hc2
        have hee : e = '\x60' := by simpa using hc3
        subst hd
        subst hee
        rw [← hb, ← hr]
        rfl
    · rw [findFence, if_neg hc] at h
      rcases hf : findFence cs with _ | ⟨⟨bb, rr⟩⟩
      · rw [hf] at h
        exact Option.noConfusion h
      · rw [hf] at h
        obtain ⟨hb, hr⟩ : c :: bb = b ∧ rr = r := by simpa using h
        rw [← hb, ← hr, List.cons_append, ← findFence_spec cs bb rr hf]

theorem fenceScanAux_spec : ∀ (fuel : Nat) (cs : List Char) (frag : String),
    frag ∈ fenceScanAux fuel cs →
    ∃ pre c₁ c₂ c₃ c₄ wsr body z,
      cs = pre ++ ('\x60' :: '\x60' :: '\x60' :: c₁ :: c₂ :: c₃ :: c₄ ::
        (wsr ++ (body ++ '\x60' :: z))) ∧
      frag = String.mk body ∧ pyWsOnly wsr ∧
      c₁ ≠ '\\' ∧ c₂ ≠ '\\' ∧ c₃ ≠ '\\' ∧ c₄ ≠ '\\'
  | 0, cs, frag, h => by simp [fenceScanAux] at h
  | fuel + 1, [], frag, h => by simp [fenceScanAux] at h
  | fuel + 1, c :: cs, frag, h => by
    rcases hopen : fenceOpen? (c :: cs) with _ | afterTag
    · simp only [fenceScanAux, hopen] at h
      obtain ⟨pre, c₁, c₂, c₃, c₄, wsr, body, z, hdec, hfrag, hws, h1, h2, h3, h4⟩ :=
        fenceScanAux_spec fuel cs frag h
      exact ⟨c :: pre, c₁, c₂, c₃, c₄, wsr, body, z,
        by rw [List.cons_append, ← hdec], hfrag, hws, h1, h2, h3, h4⟩
    · simp only [fenceScanAux, hopen] at h
      rcases hff : findFence (skipPyWs afterTag).2 with _ | ⟨⟨body, rest⟩⟩
      · rw [hff] at h
        obtain ⟨pre, c₁, c₂, c₃, c₄, wsr, body, z, hdec, hfrag, hws, h1, h2, h3, h4⟩ :=
          fenceScanAux_spec fuel cs frag h
        exact ⟨c :: pre, c₁, c₂, c₃, c₄, wsr, body, z,
          by rw [List.cons_append, ← hdec], hfrag, hws, h1, h2, h3, h4⟩
      · rw [hff] at h
        obtain ⟨c₁, c₂, c₃, c₄, htag, h1, h2, h3, h4⟩ := fenceOpen_inv hopen
        have hwsd := skipPyWs_spec afterTag
        have hfd := findFence_spec _ _ _ hff
        rcases List.mem_cons.mp h with rfl | h'
        · refine ⟨[], c₁, c₂, c₃, c₄, (skipPyWs afterTag).1, body,
            '\x60' :: '\x60' :: rest, ?_, rfl, hwsd.2, h1, h2, h3, h4⟩
          rw [List.nil_append, htag]
          have : afterTag = (skipPyWs afterTag).1 ++
              (body ++ '\x60' :: '\x60' :: '\x60' :: rest) := by
            rw [← hfd, hwsd.1]
          conv_lhs => rw [this]
        · obtain ⟨pre, d₁, d₂, d₃, d₄, wsr, body₂, z, hdec, hfrag, hws, g1, g2, g3, g4⟩ :=
            fenceScanAux_spec fuel rest frag h'
          refine ⟨'\x60' :: '\x60' :: '\x60' :: c₁ :: c₂ :: c₃ :: c₄ ::
            ((skipPyWs afterTag).1 ++ (body ++ ['\x60', '\x60', '\x60'])) ++ pre,
            d₁, d₂, d₃, d₄, wsr, body₂, z, ?_, hfrag, hws, g1, g2, g3, g4⟩
          rw [htag]
          have : afterTag = (skipPyWs afterTag).1 ++
              (body ++ '\x60' :: '\x60' :: '\x60' :: rest) := by
            rw [← hfd, hwsd.1]
          conv_lhs => rw [this, hdec]
          simp


theorem fence_frag_units {text : String} {W1 U W2 : List Char}
    (hdec : text.data = W1 ++ '"' :: (U ++ '"' :: W2))
    (hW1 : ∀ c ∈ W1, isJsonWs c = true) (hW2 : ∀ c ∈ W2, isJsonWs c = true)
    (hU : StrUnits U) :
    ∀ frag ∈ fenceScan text, StrUnits frag.data := by
  intro frag hf
  obtain ⟨pre, c₁, c₂, c₃, c₄, wsr, body, z, hcs, hfrag, hws, h1, h2, h3, h4⟩ :=
    fenceScanAux_spec (text.length + 1) text.data frag hf
  rw [hdec] at hcs
  obtain ⟨u, w, hUeq, hz⟩ := master_cut_full hW1 hW2 hcs (by decide) (by decide)
  have hQ : StrUnits ('\x60' :: w) := (units_split_at hU hUeq (by unfold notInterior; decide)).2
  have hbig : ('\x60' :: w) ++ '"' :: W2 =
      (('\x60' :: '\x60' :: '\x60' :: c₁ :: c₂ :: c₃ :: c₄ :: wsr) ++ body) ++
        '\x60' :: z := by
    rw [List.cons_append, ← hz]
    simp
  obtain ⟨w', hU', _⟩ := master_cut hW2 hbig (by decide) (by decide)
  have hQ2 : StrUnits ((('\x60' :: '\x60' :: '\x60' :: c₁ :: c₂ :: c₃ :: c₄ :: wsr) ++
      body) ++ '\x60' :: w') := hU' ▸ hQ
  rw [List.append_assoc] at hQ2
  have hQ3 : StrUnits (body ++ '\x60' :: w') := by
    refine units_drop_run _ hQ2 ?_
    intro d hd
    simp only [List.mem_cons] at hd
    rcases hd with rfl | rfl | rfl | rfl | rfl | rfl | rfl | hd
    · decide
    · decide
    · decide
    · exact h1
    · exact h2
    · exact h3
    · exact h4
    · exact pyWs_ne_backslash (hws d hd)
  have hbody := (units_split_at hQ3 rfl (by unfold notInterior; decide)).1
  rw [hfrag]
  exact hbody

theorem findings_frag_units {text : String} {W1 U W2 : List Char}
    (hdec : text.data = W1 ++ '"' :: (U ++ '"' :: W2))
    (hW1 : ∀ c ∈ W1, isJsonWs c = true) (hW2 : ∀ c ∈ W2, isJsonWs c = true)
    (hU : StrUnits U) :
    ∀ frag ∈ findingsScan text, StrUnits frag.data := by
  intro frag hf
  obtain ⟨pre, m, post, hcs, hfrag, hshape⟩ :=
    findingsScanAux_spec (text.length + 1) text.data frag hf
  obtain ⟨A, k, hm, hA, hk⟩ := hshape
  obtain ⟨W₁, W₂, B, C, hkeq, hw₁, hw₂, hC⟩ := hk
  rw [hdec, hm, List.cons_append] at hcs
  obtain ⟨u, w, hUeq, hz⟩ := master_cut_full hW1 hW2 hcs (by decide) (by decide)
  have hQ : StrUnits ('\x7b' :: w) := (units_split_at hU hUeq (by unfold notInterior; decide)).2
  have hbig : ('\x7b' :: w) ++ '"' :: W2 =
      ('\x7b' :: (A ++ (keyLit ++ (W₁ ++ (':' :: (W₂ ++
        ('[' :: (B ++ (']' :: C))))))))) ++ '\x7d' :: post := by
    rw [List.cons_append, ← hz, hkeq]
    simp
  obtain ⟨w', hU', _⟩ := master_cut hW2 hbig (by decide) (by decide)
  have hQ2 : StrUnits (('\x7b' :: (A ++ (keyLit ++ (W₁ ++ (':' :: (W₂ ++
      ('[' :: (B ++ (']' :: C))))))))) ++ '\x7d' :: w') := hU' ▸ hQ
  have hfront := (units_split_at hQ2 rfl (by unfold notInterior; decide)).1
  have hm2 : m = ('\x7b' :: (A ++ (keyLit ++ (W₁ ++ (':' :: (W₂ ++
      ('[' :: (B ++ (']' :: C))))))))) ++ ['\x7d'] := by
    rw [hm, hkeq]
    simp
  rw [hfrag, hm2]
  exact units_append hfront (StrUnits.raw (by decide) (by decide) (by decide) StrUnits.nil)

theorem span_frag_units {text : String} {W1 U W2 : List Char}
    (hdec : text.data = W1 ++ '"' :: (U ++ '"' :: W2))
    (hW1 : ∀ c ∈ W1, isJsonWs c = true) (hW2 : ∀ c ∈ W2, isJsonWs c = true)
    (hU : StrUnits U) :
    ∀ p ∈ bracketSpans text, StrUnits (sliceStr text p.1 p.2).data := by
  intro p hp
  have hmain : bracketSpans text = (bracketSpansSpec text).take 40 := by
    simpa [bracketSpans, bracketSpansSpec] using
      bracketScanAux_take text.data 0 [] [] (by norm_num)
  have hsub : p ∈ bracketSpansSpec text := by
    rw [hmain] at hp
    exact List.take_subset _ _ hp
  obtain ⟨hab, hble, hopen, hclose⟩ :=
    allSpansSpec_endpoints text.data 0 [] text.data (by simp) (by simp) p hsub
  have halen : p.1 < text.data.length := lt_of_lt_of_le hab hble
  have hblen : p.2 - 1 < text.data.length := by omega
  have hopen' : text.data[p.1]? = some '[' := by
    rw [← List.get?_eq_getElem?]
    exact hopen
  have hgetA : text.data[p.1] = '[' := by
    rw [List.getElem?_eq_getElem halen] at hopen'
    exact Option.some.inj hopen'
  have hdropA : text.data.drop p.1 = '[' :: text.data.drop (p.1 + 1) := by
    rw [List.drop_eq_getElem_cons halen, hgetA]
  have hclose' : text.data[p.2 - 1]? = some ']' := by
    rw [← List.get?_eq_getElem?]
    exact hclose
  have hgetB : text.data[p.2 - 1] = ']' := by
    rw [List.getElem?_eq_getElem hblen] at hclose'
    exact Option.some.inj hclose'
  have hdropB : text.data.drop (p.2 - 1) = ']' :: text.data.drop p.2 := by
    rw [List.drop_eq_getElem_cons hblen, hgetB,
      show p.2 - 1 + 1 = p.2 by omega]
  obtain ⟨G, hGdec, hGlen⟩ :
      ∃ G : List Char, text.data.drop p.1 = G ++ ']' :: text.data.drop p.2 ∧
        G.length = p.2 - 1 - p.1 := by
    refine ⟨(text.data.drop p.1).take (p.2 - 1 - p.1), ?_, ?_⟩
    · conv_lhs => rw [← List.take_append_drop (p.2 - 1 - p.1) (text.data.drop p.1)]
      rw [List.drop_drop, show p.1 + (p.2 - 1 - p.1) = p.2 - 1 by omega, hdropB]
    · rw [List.length_take, List.length_drop]
      omega
  have hF : (sliceStr text p.1 p.2).data = G ++ [']'] := by
    show (text.data.drop p.1).take (p.2 - p.1) = G ++ [']']
    rw [hGdec, show p.2 - p.1 = G.length + 1 by omega, List.take_append]
    rfl
  have hsplit : W1 ++ '"' :: (U ++ '"' :: W2) =
      text.data.take p.1 ++ '[' :: text.data.drop (p.1 + 1) := by
    rw [← hdropA, List.take_append_drop]
    exact hdec.symm
  obtain ⟨u, w, hUeq, hz⟩ := master_cut_full hW1 hW2 hsplit (by decide) (by decide)
  have hQ : StrUnits ('[' :: w) := (units_split_at hU hUeq (by unfold notInterior; decide)).2
  have hbig : ('[' :: w) ++ '"' :: W2 = G ++ ']' :: text.data.drop p.2 := by
    rw [List.cons_append, ← hz, ← hdropA]
    exact hGdec
  obtain ⟨w', hU', _⟩ := master_cut hW2 hbig (by decide) (by decide)
  have hQ2 : StrUnits (G ++ ']' :: w') := hU' ▸ hQ
  have hG := (units_split_at hQ2 rfl (by unfold notInterior; decide)).1
  rw [hF]
  exact units_append hG (StrUnits.raw (by decide) (by decide) (by decide) StrUnits.nil)

theorem selLoop_stay : ∀ (l : List Cand) (best : Option JVal) (bs : Score),
    (∀ c ∈ l, ¬ scoreLt bs (candScore c)) → selLoop l best bs = (best, bs)
  | [], _, _, _ => rfl
  | c :: cs, best, bs, h => by
    rw [selLoop, if_neg (h c (by simp))]
    exact selLoop_stay cs best bs (fun d hd => h d (by simp [hd]))

/-! ## C10: double decode of a string-literal input -/

/-- **C10.**  For every input text that is a single JSON string literal
whose content is itself a valid JSON array of N ≥ 1 valid Finding Records,
the strict engine recovers those N records: the whole-text parse yields the
inner string as a candidate value, \x60load_json\x60 parses the string candidate a
second time (the double decode), and the output is exactly those records
(snippet truncation applied). -/
theorem c10_double_decode {text s : String} {recs : List JVal}
    (h1 : json_loads text = some (JVal.str s))
    (h2 : json_loads s = some (JVal.arr recs))
    (h3 : recs.all validFinding = true) (h4 : recs ≠ []) :
    strat1 text = [Cand.val (JVal.str s)] ∧
    load_json (Cand.val (JVal.str s)) = json_loads s ∧
    best_findings text = truncList recs := by
  have hs1 : strat1 text = [Cand.val (JVal.str s)] := by
    rw [strat1, h1]
  have hload : load_json (Cand.val (JVal.str s)) = json_loads s := rfl
  have hs2 : strat2 text = [] := by
    rw [strat2, h1]
  have hfd : recs.filter isDict = recs :=
    filter_all_eq (by
      rw [List.all_eq_true] at h3 ⊢
      exact fun a ha => validFinding_isDict (h3 a ha))
  have hfv : recs.filter validFinding = recs := filter_all_eq h3
  have hne : recs.isEmpty = false := by
    cases recs
    · exact absurd rfl h4
    · rfl
  have hN : 0 < recs.length := List.length_pos.mpr h4
  have hNi : (1 : Int) ≤ (recs.length : Int) := by exact_mod_cast hN
  have hA : candArr (Cand.val (JVal.str s)) = some (JVal.arr recs) := by
    show unwrapFindings (load_json (Cand.val (JVal.str s))) = some (JVal.arr recs)
    rw [hload, h2]
    rfl
  have hsc2 : score_array (some (JVal.arr recs)) =
      ((recs.length : Int), (recs.length : Int)) := by
    simp [score_array, hfd, hfv, hne]
  have hsc : candScore (Cand.val (JVal.str s)) =
      ((recs.length : Int), (recs.length : Int)) := by
    show score_array (candArr (Cand.val (JVal.str s))) =
      ((recs.length : Int), (recs.length : Int))
    rw [hA, hsc2]
  obtain ⟨W1, U, W2, hdec, hW1, hW2, hU⟩ := json_loads_str_inv h1
  have htail : ∀ c ∈ strat2 text ++ ((fenceScan text).map Cand.frag ++
      ((findingsScan text).map Cand.frag ++ strat5 text)),
      ¬ scoreLt ((recs.length : Int), (recs.length : Int)) (candScore c) := by
    intro c hc
    rw [hs2, List.nil_append] at hc
    have hle : (candScore c).1 ≤ 0 := by
      rcases List.mem_append.mp hc with hc | hc
      · obtain ⟨f, hfmem, rfl⟩ := List.mem_map.mp hc
        exact units_frag_score (fence_frag_units hdec hW1 hW2 hU f hfmem)
      · rcases List.mem_append.mp hc with hc | hc
        · obtain ⟨f, hfmem, rfl⟩ := List.mem_map.mp hc
          exact units_frag_score (findings_frag_units hdec hW1 hW2 hU f hfmem)
        · obtain ⟨p, hpmem, rfl⟩ := List.mem_map.mp hc
          exact units_frag_score (span_frag_units hdec hW1 hW2 hU p hpmem)
    intro hlt
    have hfst : ((recs.length : Int), (recs.length : Int)).1 = (recs.length : Int) := rfl
    rcases hlt with hlt | ⟨heq, _⟩
    · rw [hfst] at hlt
      omega
    · rw [hfst] at heq
      rw [heq] at hNi
      omega
  have hpos : scoreLt (-1, 0) (candScore (Cand.val (JVal.str s))) := by
    rw [hsc]
    exact Or.inl (by omega)
  have hbp : best_pair text =
      (some (JVal.arr recs), ((recs.length : Int), (recs.length : Int))) := by
    have hstep : ∀ (c : Cand) (cs : List Cand) (best : Option JVal) (bs : Score),
        selLoop (c :: cs) best bs =
          if scoreLt bs (candScore c) then selLoop cs (candArr c) (candScore c)
          else selLoop cs best bs := fun _ _ _ _ => rfl
    rw [best_pair, json_candidates, hs1]
    simp only [List.append_assoc, List.singleton_append, List.cons_append, List.nil_append]
    rw [hstep (Cand.val (JVal.str s)) (strat2 text ++ (List.map Cand.frag (fenceScan text) ++
      (List.map Cand.frag (findingsScan text) ++ strat5 text))) none (-1, 0)]
    rw [if_pos hpos, hA, hsc]
    exact selLoop_stay _ _ _ htail
  refine ⟨hs1, hload, ?_⟩
  rw [best_findings, hbp]
  simp only [hsc2]
  rw [if_pos (by exact_mod_cast hN)]

set_option maxRecDepth 100000 in
theorem c10_double_decode_witness :
    json_loads c10text = some (JVal.str c10inner) ∧
    json_loads c10inner = some (JVal.arr [c10rec]) ∧
    [c10rec].all validFinding = true ∧ [c10rec] ≠ [] ∧
    best_findings c10text = truncList [c10rec] := by
  have h1 : json_loads c10text = some (JVal.str c10inner) := by rfl
  have h2 : json_loads c10inner = some (JVal.arr [c10rec]) := by rfl
  have h3 : [c10rec].all validFinding = true := by rfl
  have h4 : [c10rec] ≠ ([] : List JVal) := by simp
  exact ⟨h1, h2, h3, h4, (c10_double_decode h1 h2 h3 h4).2.2⟩

end CrsSalvage
